import Mathlib

/-!
Verification of the DRE-ip cryptographic core (pwf.rs, ballots.rs, election.rs)
over a shallow embedding.

The protocol code is generic over a prime-order cyclic group (`DreipGroup`,
spec §4.1): a `Point` type forming the group written additively with two
generators `g1`, `g2`, and a `Scalar` type which is the integer field modulo
the group order.  We embed this with `q` the group order and both `Point` and
`Scalar` modelled as `ZMod q` (every cyclic group of prime order `q` is
isomorphic to the additive group `ZMod q`, with scalar multiplication becoming
field multiplication).  The `crate::group` module itself is not among the
source files (only the older `groups.rs` draft and the P-256 instantiation
are), so byte encodings are modelled from the spec: scalars are canonical
32-byte big-endian strings rejected when ≥ the order (spec §4.2, §6), points
are canonical 33-byte strings standing in for SEC1 compressed form, and
decoding is partial.  The hash-to-scalar operation is an explicit function
parameter `H` receiving the list of byte slices exactly as `Scalar::from_hash`
does.  RNGs are modelled as explicit streams `Nat → ZMod q`; each code path
consumes draws in the order the Rust code makes them.

The source tree carries several superseded revisions (spec §9, "Open
question"): `lib.rs` is an abandoned draft, `election.rs` holds the
`Election` orchestration and an older ballot form, and `ballots.rs` holds the
latest `Vote`/`Ballot` lifecycle.  Following the spec, the latest revision of
each item is embedded; `Election::create_vote` from `election.rs` is embedded
separately because one claim is specifically about its RNG usage.
-/

namespace Dreip

/-- Bytes are naturals; encoders only ever emit values `< 256` and decoders
reject anything else, mirroring `&[u8]`. -/
abbrev Bytes := List Nat

/-- Fixed-width big-endian encoding of a natural, `k` bytes. -/
def natToBytesBE : Nat → Nat → Bytes
  | 0, _ => []
  | k + 1, n => natToBytesBE k (n / 256) ++ [n % 256]

/-- Big-endian interpretation of a byte string. -/
def bytesToNat (bs : Bytes) : Nat := bs.foldl (fun acc b => acc * 256 + b) 0

variable (q : Nat)

/-- Scalar serialization: canonical 32-byte big-endian form (spec §4.2). -/
def scalarToBytes (s : ZMod q) : Bytes := natToBytesBE 32 s.val

/-- Scalar deserialization: rejects wrong length, non-byte values, and
values not strictly below the order. -/
def scalarFromBytes (bs : Bytes) : Option (ZMod q) :=
  if bs.length = 32 ∧ (∀ b ∈ bs, b < 256) ∧ bytesToNat bs < q then
    some ((bytesToNat bs : Nat) : ZMod q)
  else
    none

/-- Point serialization, modelled from the spec: a canonical injective
33-byte form standing in for SEC1 compressed encoding. -/
def pointToBytes (p : ZMod q) : Bytes := natToBytesBE 33 p.val

/-- Point deserialization: partial, rejecting non-canonical strings, the
counterpart of SEC1 decoding failure. -/
def pointFromBytes (bs : Bytes) : Option (ZMod q) :=
  if bs.length = 33 ∧ (∀ b ∈ bs, b < 256) ∧ bytesToNat bs < q then
    some ((bytesToNat bs : Nat) : ZMod q)
  else
    none

variable {q}

/-! Model of `src/pwf.rs`.  Proof fields are stored as byte strings, exactly
as in the Rust structs. -/

/-- The disjunctive vote proof struct (`pwf.rs` lines 9-18): the two
sub-challenges and two responses, serialized. -/
structure VoteProof where
  c1 : Bytes
  c2 : Bytes
  r1 : Bytes
  r2 : Bytes
  deriving DecidableEq, Repr

variable (q) in
/-- Embedding of `VoteProof::new` (`pwf.rs` lines 80-151).  The three RNG
draws are made explicit, in the order the code performs them:
`randomScalar` (the genuine commitment), `fakeResponse`, `fakeChallenge`. -/
def VoteProof.new (H : List Bytes → ZMod q) (g1 g2 : ZMod q) (v : Bool)
    (r randomScalar fakeResponse fakeChallenge : ZMod q)
    (Z R : ZMod q) (ballot_id candidate_id : Bytes) : VoteProof :=
  let genuine_a := g1 * randomScalar
  let genuine_b := g2 * randomScalar
  let fake_a :=
    if v then g1 * fakeResponse + Z * fakeChallenge
    else g1 * fakeResponse + (Z - g1) * fakeChallenge
  let fake_b := g2 * fakeResponse + R * fakeChallenge
  let x := if v then (fake_a, fake_b, genuine_a, genuine_b)
    else (genuine_a, genuine_b, fake_a, fake_b)
  match x with
  | (a1, b1, a2, b2) =>
    let challenge := H [pointToBytes q g1, pointToBytes q g2, pointToBytes q Z,
      pointToBytes q R, pointToBytes q a1, pointToBytes q b1, pointToBytes q a2,
      pointToBytes q b2, ballot_id, candidate_id]
    let genuine_challenge := challenge - fakeChallenge
    let genuine_response := randomScalar - r * genuine_challenge
    let y := if v then (fakeChallenge, genuine_challenge, fakeResponse, genuine_response)
      else (genuine_challenge, fakeChallenge, genuine_response, fakeResponse)
    match y with
    | (c1, c2, r1, r2) =>
      ⟨scalarToBytes q c1, scalarToBytes q c2, scalarToBytes q r1, scalarToBytes q r2⟩

variable (q) in
/-- Embedding of `VoteProof::verify` (`pwf.rs` lines 155-200).  `Z` and `R`
arrive as byte strings; every failing decode makes the whole verification
return `none`, exactly as the chain of `?` operators does. -/
def VoteProof.verify (H : List Bytes → ZMod q) (g1 g2 : ZMod q) (pf : VoteProof)
    (Zb Rb : Bytes) (ballot_id candidate_id : Bytes) : Option Unit :=
  match pointFromBytes q Zb, pointFromBytes q Rb, scalarFromBytes q pf.c1,
      scalarFromBytes q pf.c2, scalarFromBytes q pf.r1, scalarFromBytes q pf.r2 with
  | some Z, some R, some c1, some c2, some r1, some r2 =>
    let a1 := g1 * r1 + Z * c1
    let b1 := g2 * r1 + R * c1
    let a2 := g1 * r2 + (Z - g1) * c2
    let b2 := g2 * r2 + R * c2
    let challenge := H [pointToBytes q g1, pointToBytes q g2, pointToBytes q Z,
      pointToBytes q R, pointToBytes q a1, pointToBytes q b1, pointToBytes q a2,
      pointToBytes q b2, ballot_id, candidate_id]
    if c1 + c2 = challenge then some () else none
  | _, _, _, _, _, _ => none

/-- Embedding of `VoteProof::to_bytes` (`pwf.rs` lines 203-211). -/
def VoteProof.toBytes (pf : VoteProof) : Bytes := pf.c1 ++ pf.c2 ++ pf.r1 ++ pf.r2

/-- The ballot sum proof struct (`pwf.rs` lines 216-223). -/
structure BallotProof where
  a : Bytes
  b : Bytes
  r : Bytes
  deriving DecidableEq, Repr

variable (q) in
/-- Embedding of `BallotProof::new` (`pwf.rs` lines 260-295), with the single
RNG draw `randomScalar` explicit. -/
def BallotProof.new (H : List Bytes → ZMod q) (g1 g2 : ZMod q)
    (randomScalar r_sum : ZMod q) (ballot_id : Bytes) : BallotProof :=
  let a := g1 * randomScalar
  let b := g2 * randomScalar
  let challenge := H [pointToBytes q g1, pointToBytes q g2, pointToBytes q a,
    pointToBytes q b, ballot_id]
  let response := randomScalar + challenge * r_sum
  ⟨pointToBytes q a, pointToBytes q b, scalarToBytes q response⟩

variable (q) in
/-- Embedding of `BallotProof::verify` (`pwf.rs` lines 299-339).  `Z_sum` and
`R_sum` are points, matching the Rust signature. -/
def BallotProof.verify (H : List Bytes → ZMod q) (g1 g2 : ZMod q)
    (pf : BallotProof) (Z_sum R_sum : ZMod q) (ballot_id : Bytes) : Option Unit :=
  match pointFromBytes q pf.a, pointFromBytes q pf.b, scalarFromBytes q pf.r with
  | some a, some b, some r =>
    let challenge := H [pointToBytes q g1, pointToBytes q g2, pointToBytes q a,
      pointToBytes q b, ballot_id]
    let X := Z_sum - g1
    if g1 * r ≠ a + X * challenge then none
    else if g2 * r ≠ b + R_sum * challenge then none
    else some ()
  | _, _, _ => none

/-- Embedding of `BallotProof::to_bytes` (`pwf.rs` lines 342-349). -/
def BallotProof.toBytes (pf : BallotProof) : Bytes := pf.a ++ pf.b ++ pf.r

variable (q) in
/-- The challenge scalar of a ballot proof built with commitment draw
`randomScalar`; names the hash application shared by `BallotProof.new` and
`BallotProof.verify`. -/
def ballotChallenge (H : List Bytes → ZMod q) (g1 g2 randomScalar : ZMod q)
    (ballot_id : Bytes) : ZMod q :=
  H [pointToBytes q g1, pointToBytes q g2, pointToBytes q (g1 * randomScalar),
    pointToBytes q (g2 * randomScalar), ballot_id]

/-! Model of `src/ballots.rs`: votes with and without secrets, ballots, and
the confirm transition. -/

variable (q) in
/-- `Vote<G, SecretsPresent<G>>` (`ballots.rs` lines 47-55 and 102-121),
with the flattened secrets `r`, `v` alongside the public `R`, `Z`, `pwf`. -/
structure VoteS where
  r : ZMod q
  v : ZMod q
  R : ZMod q
  Z : ZMod q
  pwf : VoteProof
  deriving DecidableEq

variable (q) in
/-- `Vote<G, NoSecrets>` (`ballots.rs` lines 86 and 102-121): only the
public values remain after confirmation. -/
structure VoteN where
  R : ZMod q
  Z : ZMod q
  pwf : VoteProof
  deriving DecidableEq

variable (q) in
/-- Embedding of `Vote::new` (`ballots.rs` lines 182-212).  The four RNG
draws, in code order: `r` itself, then the three draws `VoteProof::new`
makes. -/
def Vote.new (H : List Bytes → ZMod q) (g1 g2 : ZMod q)
    (ballot_id candidate : Bytes) (yes : Bool)
    (r randomScalar fakeResponse fakeChallenge : ZMod q) : VoteS q :=
  let v : ZMod q := if yes then 1 else 0
  let R := g2 * r
  let Z := g1 * (r + v)
  let pwf := VoteProof.new q H g1 g2 yes r randomScalar fakeResponse fakeChallenge
    Z R ballot_id candidate
  ⟨r, v, R, Z, pwf⟩

variable (q) in
/-- Embedding of `Vote::confirm` (`ballots.rs` lines 215-222): drop `r`, `v`. -/
def Vote.confirm (vt : VoteS q) : VoteN q := ⟨vt.R, vt.Z, vt.pwf⟩

/-- `VoteError` (`ballots.rs` lines 12-15). -/
structure VoteError where
  ballot_id : Bytes
  candidate_id : Bytes
  deriving DecidableEq

/-- `BallotError` (`ballots.rs` lines 19-24). -/
inductive BallotError where
  | vote : VoteError → BallotError
  | ballotProof : Bytes → BallotError
  deriving DecidableEq

/-- `VerificationError` (`election.rs` lines 27-35). -/
inductive VerificationError where
  | ballot : BallotError → VerificationError
  | tally : Bytes → VerificationError
  | wrongCandidates : VerificationError
  deriving DecidableEq

variable (q) in
/-- Embedding of `Vote::verify` on a vote with secrets (`ballots.rs` lines
129-161): first `SecretsPresent::verify` (lines 57-69), then the vote proof.
The proof verifier receives the stored points in their canonical byte form,
matching the byte-slice interface of `VoteProof::verify` in `pwf.rs`. -/
def Vote.verifyS (H : List Bytes → ZMod q) (g1 g2 : ZMod q) (vt : VoteS q)
    (ballot_id candidate_id : Bytes) : Except VoteError Unit :=
  if g1 * (vt.r + vt.v) = vt.Z ∧ g2 * vt.r = vt.R then
    match VoteProof.verify q H g1 g2 vt.pwf (pointToBytes q vt.Z)
        (pointToBytes q vt.R) ballot_id candidate_id with
    | some _ => .ok ()
    | none => .error ⟨ballot_id, candidate_id⟩
  else .error ⟨ballot_id, candidate_id⟩

variable (q) in
/-- Embedding of `Vote::verify` on a confirmed vote: `NoSecrets::verify`
(`ballots.rs` lines 88-94) always succeeds, leaving only the proof check. -/
def Vote.verifyN (H : List Bytes → ZMod q) (g1 g2 : ZMod q) (vt : VoteN q)
    (ballot_id candidate_id : Bytes) : Except VoteError Unit :=
  match VoteProof.verify q H g1 g2 vt.pwf (pointToBytes q vt.Z)
      (pointToBytes q vt.R) ballot_id candidate_id with
  | some _ => .ok ()
  | none => .error ⟨ballot_id, candidate_id⟩

/-- The ballot struct (`ballots.rs` lines 231-241): a candidate-to-vote map,
modelled as an association list whose order stands for the hash map's
unspecified iteration order, plus the ballot proof. -/
structure Ballot (V : Type) where
  votes : List (Bytes × V)
  pwf : BallotProof
  deriving DecidableEq

/-- Key order used by `Ballot::to_bytes` when sorting: the candidate
identifiers' ascending byte-lexicographic order (the `Ord` instance of the
candidate-id type in the code). -/
def keyLe {V : Type} (p p' : Bytes × V) : Prop := p.1 ≤ p'.1

instance {V : Type} : DecidableRel (@keyLe V) :=
  fun a b => inferInstanceAs (Decidable (a.1 ≤ b.1))

instance {V : Type} : IsTotal (Bytes × V) keyLe :=
  ⟨fun a b => le_total a.1 b.1⟩

instance {V : Type} : IsTrans (Bytes × V) keyLe :=
  ⟨fun _ _ _ h h' => le_trans h h'⟩

/-- Embedding of `Ballot::to_bytes` (`ballots.rs` lines 250-262): collect the
vote entries, sort them by candidate id, emit `candidate ++ vote_bytes` for
each, then the ballot proof bytes.  Generic over the vote payload and its
serializer, as the Rust code is generic over `S`. -/
def Ballot.toBytes {V : Type} (voteBytes : V → Bytes) (b : Ballot V) : Bytes :=
  (List.insertionSort keyLe b.votes).foldl
    (fun acc p => acc ++ p.1 ++ voteBytes p.2) [] ++ BallotProof.toBytes b.pwf

variable (q) in
/-- Embedding of the `Vote::to_bytes` with secrets present (`ballots.rs`
lines 169-177 with `SecretsPresent` serialization, lines 71-79). -/
def voteToBytesS (vt : VoteS q) : Bytes :=
  scalarToBytes q vt.r ++ scalarToBytes q vt.v ++ pointToBytes q vt.R ++
    pointToBytes q vt.Z ++ VoteProof.toBytes vt.pwf

variable (q) in
/-- Embedding of the `Vote::to_bytes` with no secrets (`ballots.rs` lines
96-100 and 169-177). -/
def voteToBytesN (vt : VoteN q) : Bytes :=
  pointToBytes q vt.R ++ pointToBytes q vt.Z ++ VoteProof.toBytes vt.pwf

variable (q) in
/-- The per-vote loop of `Ballot::verify` (`ballots.rs` lines 282-286). -/
def votesVerifyS (H : List Bytes → ZMod q) (g1 g2 : ZMod q) (ballot_id : Bytes) :
    List (Bytes × VoteS q) → Except BallotError Unit
  | [] => .ok ()
  | (candidate, vote) :: rest =>
    match Vote.verifyS q H g1 g2 vote ballot_id candidate with
    | .error e => .error (.vote e)
    | .ok _ => votesVerifyS H g1 g2 ballot_id rest

variable (q) in
/-- The per-vote loop of `Ballot::verify` over confirmed votes. -/
def votesVerifyN (H : List Bytes → ZMod q) (g1 g2 : ZMod q) (ballot_id : Bytes) :
    List (Bytes × VoteN q) → Except BallotError Unit
  | [] => .ok ()
  | (candidate, vote) :: rest =>
    match Vote.verifyN q H g1 g2 vote ballot_id candidate with
    | .error e => .error (.vote e)
    | .ok _ => votesVerifyN H g1 g2 ballot_id rest

variable (q) in
/-- Embedding of `Ballot::verify` (`ballots.rs` lines 273-302) for an
audited (secrets-present) ballot: verify every vote, then the sum proof
against `Z_sum` and `R_sum` folded over the votes. -/
def Ballot.verifyS (H : List Bytes → ZMod q) (g1 g2 : ZMod q)
    (b : Ballot (VoteS q)) (ballot_id : Bytes) : Except BallotError Unit :=
  match votesVerifyS q H g1 g2 ballot_id b.votes with
  | .error e => .error e
  | .ok _ =>
    let Z_sum : ZMod q := (b.votes.map fun p => p.2.Z).sum
    let R_sum : ZMod q := (b.votes.map fun p => p.2.R).sum
    match BallotProof.verify q H g1 g2 b.pwf Z_sum R_sum ballot_id with
    | some _ => .ok ()
    | none => .error (.ballotProof ballot_id)

variable (q) in
/-- Embedding of `Ballot::verify` for a confirmed ballot (also the
`Ballot::verify` of `election.rs` lines 205-224). -/
def Ballot.verifyN (H : List Bytes → ZMod q) (g1 g2 : ZMod q)
    (b : Ballot (VoteN q)) (ballot_id : Bytes) : Except BallotError Unit :=
  match votesVerifyN q H g1 g2 ballot_id b.votes with
  | .error e => .error e
  | .ok _ =>
    let Z_sum : ZMod q := (b.votes.map fun p => p.2.Z).sum
    let R_sum : ZMod q := (b.votes.map fun p => p.2.R).sum
    match BallotProof.verify q H g1 g2 b.pwf Z_sum R_sum ballot_id with
    | some _ => .ok ()
    | none => .error (.ballotProof ballot_id)

/-- The `votes.insert` + `ensure_none` step of `Ballot::new` (`ballots.rs`
lines 334, 338 and 382-388): fail if the candidate is already present,
otherwise add the entry. -/
def insertVote {V : Type} (votes : List (Bytes × V)) (candidate : Bytes)
    (vote : V) : Option (List (Bytes × V)) :=
  if candidate ∈ votes.map Prod.fst then none
  else some (votes ++ [(candidate, vote)])

variable (q) in
/-- The no-candidates loop of `Ballot::new` (`ballots.rs` lines 336-339),
with `k` the index of the next unused RNG draw. -/
def ballotNoVotes (H : List Bytes → ZMod q) (g1 g2 : ZMod q) (rng : Nat → ZMod q)
    (ballot_id : Bytes) :
    List Bytes → Nat → List (Bytes × VoteS q) → Option (List (Bytes × VoteS q))
  | [], _, votes => some votes
  | candidate :: rest, k, votes =>
    let no_vote := Vote.new q H g1 g2 ballot_id candidate false
      (rng k) (rng (k + 1)) (rng (k + 2)) (rng (k + 3))
    match insertVote votes candidate no_vote with
    | none => none
    | some votes' => ballotNoVotes H g1 g2 rng ballot_id rest (k + 4) votes'

variable (q) in
/-- Embedding of `Ballot::new` (`ballots.rs` lines 312-348): the yes vote,
then the no votes, failing on any duplicate candidate; finally the ballot
proof over the sum of the votes' `r` values. -/
def Ballot.new (H : List Bytes → ZMod q) (g1 g2 : ZMod q) (rng : Nat → ZMod q)
    (ballot_id yes_candidate : Bytes) (no_candidates : List Bytes) :
    Option (Ballot (VoteS q)) :=
  let yes_vote := Vote.new q H g1 g2 ballot_id yes_candidate true
    (rng 0) (rng 1) (rng 2) (rng 3)
  match insertVote [] yes_candidate yes_vote with
  | none => none
  | some votes0 =>
    match ballotNoVotes q H g1 g2 rng ballot_id no_candidates 4 votes0 with
    | none => none
    | some votes =>
      let r_sum : ZMod q := (votes.map fun p => p.2.r).sum
      some ⟨votes, BallotProof.new q H g1 g2
        (rng (4 * (no_candidates.length + 1))) r_sum ballot_id⟩

variable (q) in
/-- `CandidateTotals` (`election.rs` lines 418-435). -/
structure CandidateTotals where
  tally : ZMod q
  r_sum : ZMod q
  deriving DecidableEq

variable (q) in
/-- A candidate totals map, modelled as an association list. -/
abbrev TotalsMap := List (Bytes × CandidateTotals q)

variable (q) in
/-- One iteration of the totals update in `Ballot::confirm` (`ballots.rs`
lines 360-364): `totals.get_mut(candidate).unwrap()` then add `v` and `r`.
The `none` result is the `unwrap` panic on a missing candidate. -/
def incTotals (totals : TotalsMap q) (candidate : Bytes) (v r : ZMod q) :
    Option (TotalsMap q) :=
  if candidate ∈ totals.map Prod.fst then
    some (totals.map fun p =>
      if p.1 = candidate then (p.1, ⟨p.2.tally + v, p.2.r_sum + r⟩) else p)
  else none

variable (q) in
/-- The totals-update loop of `Ballot::confirm`, iterating the votes map. -/
def confirmTotals : List (Bytes × VoteS q) → TotalsMap q → Option (TotalsMap q)
  | [], totals => some totals
  | (candidate, vote) :: rest, totals =>
    match incTotals q totals candidate vote.v vote.r with
    | none => none
    | some totals' => confirmTotals rest totals'

variable (q) in
/-- The totals-update loop with the intermediate state retained: returns the
totals as they stand when the loop finishes or panics, and whether it
panicked.  This makes the partial mutation before a panic observable. -/
def confirmTrace : List (Bytes × VoteS q) → TotalsMap q → TotalsMap q × Bool
  | [], totals => (totals, false)
  | (candidate, vote) :: rest, totals =>
    match incTotals q totals candidate vote.v vote.r with
    | none => (totals, true)
    | some totals' => confirmTrace rest totals'

variable (q) in
/-- Embedding of `Ballot::confirm` (`ballots.rs` lines 354-378): optionally
increment the supplied totals (panicking, i.e. `none`, on a missing
candidate), then drop all secrets. -/
def Ballot.confirm (b : Ballot (VoteS q)) (totals : Option (TotalsMap q)) :
    Option (Ballot (VoteN q) × Option (TotalsMap q)) :=
  match totals with
  | none => some (⟨b.votes.map fun p => (p.1, Vote.confirm q p.2), b.pwf⟩, none)
  | some t =>
    match confirmTotals q b.votes t with
    | none => none
    | some t' =>
      some (⟨b.votes.map fun p => (p.1, Vote.confirm q p.2), b.pwf⟩, some t')

/-! Model of `src/election.rs`: vote creation and election verification. -/

variable (q) in
/-- Embedding of `Election::create_vote` (`election.rs` lines 339-363).
This revision draws the secret `r` from `rand::thread_rng()` — a global
generator modelled as the separate stream `threadRng` — while the three
proof draws come from the caller-supplied `rng`. -/
def Election.createVote (H : List Bytes → ZMod q) (g1 g2 : ZMod q)
    (rng threadRng : Nat → ZMod q) (ballot_id candidate : Bytes) (yes : Bool) :
    VoteS q :=
  let r := threadRng 0
  let v : ZMod q := if yes then 1 else 0
  let R := g2 * r
  let Z := g1 * (r + v)
  let pwf := VoteProof.new q H g1 g2 yes r (rng 0) (rng 1) (rng 2)
    Z R ballot_id candidate
  ⟨r, v, R, Z, pwf⟩

/-- Association-list lookup by first component, the model of `HashMap::get`. -/
def alookup {β : Type} : List (Bytes × β) → Bytes → Option β
  | [], _ => none
  | p :: rest, c => if p.1 = c then some p.2 else alookup rest c

variable (q) in
/-- The per-ballot loop of `Election::verify` (`election.rs` lines 377-380). -/
def ballotsCheck (H : List Bytes → ZMod q) (g1 g2 : ZMod q) :
    List (Bytes × Ballot (VoteN q)) → Except VerificationError Unit
  | [] => .ok ()
  | (ballot_id, ballot) :: rest =>
    match Ballot.verifyN q H g1 g2 ballot ballot_id with
    | .error e => .error (.ballot e)
    | .ok _ => ballotsCheck H g1 g2 rest

variable (q) in
/-- One `entry(..).or_insert(..)` + accumulate step of the true-totals
computation (`election.rs` lines 386-390). -/
def upsertTrue (m : List (Bytes × (ZMod q × ZMod q))) (candidate : Bytes)
    (Z R : ZMod q) : List (Bytes × (ZMod q × ZMod q)) :=
  if candidate ∈ m.map Prod.fst then
    m.map fun p => if p.1 = candidate then (p.1, (p.2.1 + Z, p.2.2 + R)) else p
  else m ++ [(candidate, (0 + Z, 0 + R))]

variable (q) in
/-- The true-totals accumulation over one ballot's votes. -/
def trueTotalsBallot (m : List (Bytes × (ZMod q × ZMod q)))
    (b : Ballot (VoteN q)) : List (Bytes × (ZMod q × ZMod q)) :=
  b.votes.foldl (fun m' p => upsertTrue q m' p.1 p.2.Z p.2.R) m

variable (q) in
/-- The true totals of `Election::verify` (`election.rs` lines 383-392):
per candidate, the sum of `Z` values and the sum of `R` values across all
ballots. -/
def trueTotals (ballots : List (Bytes × Ballot (VoteN q))) :
    List (Bytes × (ZMod q × ZMod q)) :=
  ballots.foldl (fun m p => trueTotalsBallot q m p.2) []

variable (q) in
/-- The tally-checking loop of `Election::verify` (`election.rs` lines
398-403).  The `getD` default models the `.expect("Already checked")`,
which is unreachable once the candidate-set check has passed. -/
def checkTallies (g1 g2 : ZMod q) (tt : List (Bytes × (ZMod q × ZMod q))) :
    TotalsMap q → Except VerificationError Unit
  | [] => .ok ()
  | (candidate, tot) :: rest =>
    let true_tot := (alookup tt candidate).getD (0, 0)
    if g1 * (tot.tally + tot.r_sum) ≠ true_tot.1 ∨ g2 * tot.r_sum ≠ true_tot.2 then
      .error (.tally candidate)
    else checkTallies g1 g2 tt rest

variable (q) in
/-- Embedding of `Election::verify` (`election.rs` lines 368-406): verify
every ballot, accumulate true totals, compare the candidate sets (lengths
plus containment, as the code does), then check every announced tally. -/
def Election.verify (H : List Bytes → ZMod q) (g1 g2 : ZMod q)
    (ballots : List (Bytes × Ballot (VoteN q))) (totals : TotalsMap q) :
    Except VerificationError Unit :=
  match ballotsCheck q H g1 g2 ballots with
  | .error e => .error e
  | .ok _ =>
    let tt := trueTotals q ballots
    if tt.length = totals.length ∧ ∀ p ∈ tt, (alookup totals p.1).isSome then
      checkTallies q g1 g2 tt totals
    else .error .wrongCandidates

/-! Derived quantities used to state the claims: candidate sets and
per-candidate sums, written directly as sums over the ballot lists. -/

variable (q) in
/-- All candidate ids appearing across the ballots' votes. -/
def electionCandidates (ballots : List (Bytes × Ballot (VoteN q))) : List Bytes :=
  (ballots.map fun p => p.2.votes.map Prod.fst).flatten

variable (q) in
/-- The sum of a candidate's `Z` values within one ballot. -/
def candZ (b : Ballot (VoteN q)) (c : Bytes) : ZMod q :=
  ((b.votes.filter fun p => p.1 = c).map fun p => p.2.Z).sum

variable (q) in
/-- The sum of a candidate's `R` values within one ballot. -/
def candR (b : Ballot (VoteN q)) (c : Bytes) : ZMod q :=
  ((b.votes.filter fun p => p.1 = c).map fun p => p.2.R).sum

variable (q) in
/-- The sum of a candidate's `Z` values across all ballots. -/
def electionZ (ballots : List (Bytes × Ballot (VoteN q))) (c : Bytes) : ZMod q :=
  (ballots.map fun p => candZ q p.2 c).sum

variable (q) in
/-- The sum of a candidate's `R` values across all ballots. -/
def electionR (ballots : List (Bytes × Ballot (VoteN q))) (c : Bytes) : ZMod q :=
  (ballots.map fun p => candR q p.2 c).sum

variable (q) in
/-- The per-candidate tally equations of `Election::verify`, stated against
the explicit sums. -/
def tallyOk (g1 g2 : ZMod q) (ballots : List (Bytes × Ballot (VoteN q)))
    (c : Bytes) (tot : CandidateTotals q) : Prop :=
  g1 * (tot.tally + tot.r_sum) = electionZ q ballots c ∧
    g2 * tot.r_sum = electionR q ballots c

variable (q) in
/-- The tally equations as `checkTallies` evaluates them, against the
accumulated true-totals list. -/
def checkEq (g1 g2 : ZMod q) (tt : List (Bytes × (ZMod q × ZMod q)))
    (c : Bytes) (tot : CandidateTotals q) : Prop :=
  g1 * (tot.tally + tot.r_sum) = ((alookup tt c).getD (0, 0)).1 ∧
    g2 * tot.r_sum = ((alookup tt c).getD (0, 0)).2

variable (q) in
/-- A totals map with an all-zero entry per candidate. -/
def zeroTotals (S : List Bytes) : TotalsMap q :=
  S.map fun c => (c, ⟨0, 0⟩)

variable (q) in
/-- Confirm a list of ballots in sequence into a shared totals map,
threading the map through `Ballot.confirm`. -/
def confirmAll : List (Bytes × Ballot (VoteS q)) → TotalsMap q →
    Option (List (Bytes × Ballot (VoteN q)) × TotalsMap q)
  | [], t => some ([], t)
  | (ballot_id, b) :: rest, t =>
    match Ballot.confirm q b (some t) with
    | some (bn, some t') =>
      match confirmAll rest t' with
      | some (bns, tf) => some ((ballot_id, bn) :: bns, tf)
      | none => none
    | _ => none

variable (q) in
/-- The sum of a candidate's secret `v` values within one unconfirmed
ballot. -/
def ballotVsum (b : Ballot (VoteS q)) (c : Bytes) : ZMod q :=
  ((b.votes.filter fun p => p.1 = c).map fun p => p.2.v).sum

variable (q) in
/-- The sum of a candidate's secret `r` values within one unconfirmed
ballot. -/
def ballotRsum (b : Ballot (VoteS q)) (c : Bytes) : ZMod q :=
  ((b.votes.filter fun p => p.1 = c).map fun p => p.2.r).sum

variable (q) in
/-- The sum of a candidate's secret `v` values across a list of
unconfirmed ballots. -/
def electionVsum (bs : List (Bytes × Ballot (VoteS q))) (c : Bytes) : ZMod q :=
  (bs.map fun pb => ballotVsum q pb.2 c).sum

variable (q) in
/-- The sum of a candidate's secret `r` values across a list of
unconfirmed ballots. -/
def electionRsum (bs : List (Bytes × Ballot (VoteS q))) (c : Bytes) : ZMod q :=
  (bs.map fun pb => ballotRsum q pb.2 c).sum

variable (q) in
/-- Create one ballot per specification tuple
`(ballot_id, yes_candidate, no_candidates, rng)` via `Ballot.new`. -/
def createAll (H : List Bytes → ZMod q) (g1 g2 : ZMod q) :
    List (Bytes × Bytes × List Bytes × (Nat → ZMod q)) →
    Option (List (Bytes × Ballot (VoteS q)))
  | [] => some []
  | (ballot_id, yes, nos, rng) :: rest =>
    match Ballot.new q H g1 g2 rng ballot_id yes nos, createAll H g1 g2 rest with
    | some b, some bs => some ((ballot_id, b) :: bs)
    | _, _ => none

/-- A demonstration hash function over the 11-element group, used to
instantiate universally quantified results on concrete inputs. -/
def hashDemo : List Bytes → ZMod 11 := fun _ => 3

/-- A degenerate hash function (constant zero), a legal `DreipGroup`
instantiation of `Scalar::from_hash` under which proof forgeries exist. -/
def hashZero : List Bytes → ZMod 11 := fun _ => 0

/-- A vote record whose `v = 2` is outside `{0,1}` but whose public values
satisfy `Z = g1·(r+v)`, `R = g2·r` for `g1 = g2 = 1`, with a forged proof
accepted under `hashZero`. -/
def cexVote : VoteS 11 :=
  ⟨0, 2, 0, 2, ⟨scalarToBytes 11 0, scalarToBytes 11 0,
    scalarToBytes 11 0, scalarToBytes 11 0⟩⟩

/-- A single-vote ballot around `cexVote` with a forged sum proof. -/
def cexBallot : Ballot (VoteS 11) :=
  ⟨[([0], cexVote)], ⟨pointToBytes 11 0, pointToBytes 11 0, scalarToBytes 11 0⟩⟩

/-- A demonstration ballot proof value for serialization statements. -/
def pfDemo : BallotProof := ⟨[7], [8], [9]⟩

/-- The confirmed form of `cexVote`: public values and forged proof only. -/
def cexVoteN : VoteN 11 :=
  ⟨0, 2, ⟨scalarToBytes 11 0, scalarToBytes 11 0,
    scalarToBytes 11 0, scalarToBytes 11 0⟩⟩

/-- A confirmed single-vote ballot that passes verification under
`hashZero` with `g1 = g2 = 1`. -/
def cexBallotN : Ballot (VoteN 11) :=
  ⟨[([0], cexVoteN)], ⟨pointToBytes 11 0, pointToBytes 11 0, scalarToBytes 11 0⟩⟩

/-- A demonstration RNG stream over the 11-element group. -/
def rngDemo : Nat → ZMod 11 := fun _ => 6

instance {ε α : Type} [DecidableEq ε] [DecidableEq α] : DecidableEq (Except ε α) :=
  fun a b =>
    match a, b with
    | .ok x, .ok y =>
      if h : x = y then isTrue (by rw [h]) else isFalse (fun hc => by cases hc; exact h rfl)
    | .error x, .error y =>
      if h : x = y then isTrue (by rw [h]) else isFalse (fun hc => by cases hc; exact h rfl)
    | .ok _, .error _ => isFalse (fun hc => by cases hc)
    | .error _, .ok _ => isFalse (fun hc => by cases hc)

instance : Fact (Nat.Prime 11) := ⟨by norm_num⟩

instance : NeZero (11 : Nat) := ⟨by norm_num⟩

/-! The theorems: supporting lemmas first, then one theorem per claim with
its witness or counterexample. -/

theorem bytesToNat_append (l : Bytes) (b : Nat) :
    bytesToNat (l ++ [b]) = bytesToNat l * 256 + b := by
  simp [bytesToNat, List.foldl_append]

theorem length_natToBytesBE (k n : Nat) : (natToBytesBE k n).length = k := by
  induction k generalizing n with
  | zero => rfl
  | succ k ih => simp [natToBytesBE, ih]

theorem natToBytesBE_lt (k n : Nat) : ∀ b ∈ natToBytesBE k n, b < 256 := by
  induction k generalizing n with
  | zero => simp [natToBytesBE]
  | succ k ih =>
    intro b hb
    simp only [natToBytesBE, List.mem_append, List.mem_singleton] at hb
    rcases hb with hb | hb
    · exact ih _ b hb
    · omega

theorem bytesToNat_natToBytesBE (k n : Nat) :
    bytesToNat (natToBytesBE k n) = n % 256 ^ k := by
  induction k generalizing n with
  | zero => simp [natToBytesBE, bytesToNat, Nat.mod_one]
  | succ k ih =>
    rw [natToBytesBE, bytesToNat_append, ih]
    have h256 : (256 : Nat) ^ (k + 1) = 256 * 256 ^ k := by ring
    rw [h256, Nat.mod_mul]
    ring

theorem bytesToNat_natToBytesBE_of_lt {k n : Nat} (h : n < 256 ^ k) :
    bytesToNat (natToBytesBE k n) = n := by
  rw [bytesToNat_natToBytesBE, Nat.mod_eq_of_lt h]

theorem scalarFromBytes_toBytes [NeZero q] (hq : q < 256 ^ 32) (s : ZMod q) :
    scalarFromBytes q (scalarToBytes q s) = some s := by
  have hval : s.val < q := ZMod.val_lt s
  have hlt : s.val < 256 ^ 32 := lt_trans hval hq
  have henc : bytesToNat (natToBytesBE 32 s.val) = s.val :=
    bytesToNat_natToBytesBE_of_lt hlt
  rw [scalarToBytes, scalarFromBytes, if_pos]
  · rw [henc, ZMod.natCast_val, ZMod.cast_id]
  · refine ⟨length_natToBytesBE _ _, natToBytesBE_lt _ _, ?_⟩
    rw [henc]; exact hval

theorem pointFromBytes_toBytes [NeZero q] (hq : q < 256 ^ 32) (p : ZMod q) :
    pointFromBytes q (pointToBytes q p) = some p := by
  have hval : p.val < q := ZMod.val_lt p
  have h32 : (256 : Nat) ^ 32 ≤ 256 ^ 33 := Nat.pow_le_pow_right (by norm_num) (by norm_num)
  have hlt : p.val < 256 ^ 33 := lt_of_lt_of_le (lt_trans hval hq) h32
  have henc : bytesToNat (natToBytesBE 33 p.val) = p.val :=
    bytesToNat_natToBytesBE_of_lt hlt
  rw [pointToBytes, pointFromBytes, if_pos]
  · rw [henc, ZMod.natCast_val, ZMod.cast_id]
  · refine ⟨length_natToBytesBE _ _, natToBytesBE_lt _ _, ?_⟩
    rw [henc]; exact hval

/-- Completeness of the disjunctive proof: a proof built by `VoteProof::new`
from honestly computed `Z = g1·(r+v)`, `R = g2·r` passes `VoteProof::verify`
for any hash function, any generators and any RNG draws. -/
theorem VoteProof.verify_new [NeZero q] (hq : q < 256 ^ 32)
    (H : List Bytes → ZMod q) (g1 g2 : ZMod q) (v : Bool)
    (r ρ fr fc : ZMod q) (Z R : ZMod q) (B C : Bytes)
    (hZ : Z = g1 * (r + if v then 1 else 0)) (hR : R = g2 * r) :
    VoteProof.verify q H g1 g2 (VoteProof.new q H g1 g2 v r ρ fr fc Z R B C)
      (pointToBytes q Z) (pointToBytes q R) B C = some () := by
  cases v
  case false =>
    simp only [if_false, Bool.false_eq_true, add_zero] at hZ
    simp only [VoteProof.new, Bool.false_eq_true, if_false, VoteProof.verify,
      scalarFromBytes_toBytes hq, pointFromBytes_toBytes hq]
    have ha1 : g1 * (ρ - r *
        (H [pointToBytes q g1, pointToBytes q g2, pointToBytes q Z, pointToBytes q R,
          pointToBytes q (g1 * ρ), pointToBytes q (g2 * ρ),
          pointToBytes q (g1 * fr + (Z - g1) * fc), pointToBytes q (g2 * fr + R * fc),
          B, C] - fc)) + Z *
        (H [pointToBytes q g1, pointToBytes q g2, pointToBytes q Z, pointToBytes q R,
          pointToBytes q (g1 * ρ), pointToBytes q (g2 * ρ),
          pointToBytes q (g1 * fr + (Z - g1) * fc), pointToBytes q (g2 * fr + R * fc),
          B, C] - fc) = g1 * ρ := by
      subst hZ; ring
    have hb1 : g2 * (ρ - r *
        (H [pointToBytes q g1, pointToBytes q g2, pointToBytes q Z, pointToBytes q R,
          pointToBytes q (g1 * ρ), pointToBytes q (g2 * ρ),
          pointToBytes q (g1 * fr + (Z - g1) * fc), pointToBytes q (g2 * fr + R * fc),
          B, C] - fc)) + R *
        (H [pointToBytes q g1, pointToBytes q g2, pointToBytes q Z, pointToBytes q R,
          pointToBytes q (g1 * ρ), pointToBytes q (g2 * ρ),
          pointToBytes q (g1 * fr + (Z - g1) * fc), pointToBytes q (g2 * fr + R * fc),
          B, C] - fc) = g2 * ρ := by
      subst hR; ring
    rw [ha1, hb1]
    simp
  case true =>
    simp only [if_true] at hZ
    simp only [VoteProof.new, if_true, VoteProof.verify,
      scalarFromBytes_toBytes hq, pointFromBytes_toBytes hq]
    have ha2 : g1 * (ρ - r *
        (H [pointToBytes q g1, pointToBytes q g2, pointToBytes q Z, pointToBytes q R,
          pointToBytes q (g1 * fr + Z * fc), pointToBytes q (g2 * fr + R * fc),
          pointToBytes q (g1 * ρ), pointToBytes q (g2 * ρ),
          B, C] - fc)) + (Z - g1) *
        (H [pointToBytes q g1, pointToBytes q g2, pointToBytes q Z, pointToBytes q R,
          pointToBytes q (g1 * fr + Z * fc), pointToBytes q (g2 * fr + R * fc),
          pointToBytes q (g1 * ρ), pointToBytes q (g2 * ρ),
          B, C] - fc) = g1 * ρ := by
      subst hZ; ring
    have hb2 : g2 * (ρ - r *
        (H [pointToBytes q g1, pointToBytes q g2, pointToBytes q Z, pointToBytes q R,
          pointToBytes q (g1 * fr + Z * fc), pointToBytes q (g2 * fr + R * fc),
          pointToBytes q (g1 * ρ), pointToBytes q (g2 * ρ),
          B, C] - fc)) + R *
        (H [pointToBytes q g1, pointToBytes q g2, pointToBytes q Z, pointToBytes q R,
          pointToBytes q (g1 * fr + Z * fc), pointToBytes q (g2 * fr + R * fc),
          pointToBytes q (g1 * ρ), pointToBytes q (g2 * ρ),
          B, C] - fc) = g2 * ρ := by
      subst hR; ring
    rw [ha2, hb2]
    simp

/-- C2: for every scalar `r`, every `v ∈ {0,1}` (the boolean vote), every
RNG state, and all ballot and candidate identifiers `B`, `C`: if `R = g2·r`
and `Z = g1·(r+v)`, then the proof returned by `VoteProof::new` is accepted
by `VoteProof::verify` on the same election with the same `Z`, `R`, `B`,
`C`. -/
theorem C2_vote_proof_verifies (q : Nat) [NeZero q] (hq : q < 256 ^ 32)
    (H : List Bytes → ZMod q) (g1 g2 : ZMod q) (rng : Nat → ZMod q) (v : Bool)
    (r Z R : ZMod q) (B C : Bytes)
    (hR : R = g2 * r) (hZ : Z = g1 * (r + if v then 1 else 0)) :
    VoteProof.verify q H g1 g2
      (VoteProof.new q H g1 g2 v r (rng 0) (rng 1) (rng 2) Z R B C)
      (pointToBytes q Z) (pointToBytes q R) B C = some () :=
  VoteProof.verify_new hq H g1 g2 v r (rng 0) (rng 1) (rng 2) Z R B C hZ hR

/-- Witness for C2 at `q = 11`, `r = 4`, `v = 1`. -/
theorem C2_vote_proof_verifies_witness :
    VoteProof.verify 11 hashDemo 2 5
      (VoteProof.new 11 hashDemo 2 5 true 4 (rngDemo 0) (rngDemo 1) (rngDemo 2)
        (2 * (4 + 1)) (5 * 4) [1] [2])
      (pointToBytes 11 (2 * (4 + 1))) (pointToBytes 11 (5 * 4)) [1] [2] = some () :=
  C2_vote_proof_verifies 11 (by norm_num) hashDemo 2 5 rngDemo true 4
    (2 * (4 + 1)) (5 * 4) [1] [2] rfl rfl

/-- C10: if any stored proof field (or the supplied `Z`/`R` bytes) fails to
decode as a canonical scalar or point, `VoteProof::verify` respectively
`BallotProof::verify` returns `None`: malformed encodings surface as
ordinary proof-verification failure. -/
theorem C10_decode_failure_verify_none (q : Nat) :
    (∀ (H : List Bytes → ZMod q) (g1 g2 : ZMod q) (pf : VoteProof) (Zb Rb B C : Bytes),
      (pointFromBytes q Zb = none ∨ pointFromBytes q Rb = none ∨
        scalarFromBytes q pf.c1 = none ∨ scalarFromBytes q pf.c2 = none ∨
        scalarFromBytes q pf.r1 = none ∨ scalarFromBytes q pf.r2 = none) →
      VoteProof.verify q H g1 g2 pf Zb Rb B C = none) ∧
    (∀ (H : List Bytes → ZMod q) (g1 g2 : ZMod q) (pf : BallotProof)
        (Zs Rs : ZMod q) (B : Bytes),
      (pointFromBytes q pf.a = none ∨ pointFromBytes q pf.b = none ∨
        scalarFromBytes q pf.r = none) →
      BallotProof.verify q H g1 g2 pf Zs Rs B = none) := by
  constructor
  · intro H g1 g2 pf Zb Rb B C h
    cases hZ : pointFromBytes q Zb <;> cases hR : pointFromBytes q Rb <;>
      cases h1 : scalarFromBytes q pf.c1 <;> cases h2 : scalarFromBytes q pf.c2 <;>
        cases h3 : scalarFromBytes q pf.r1 <;> cases h4 : scalarFromBytes q pf.r2 <;>
          simp_all [VoteProof.verify]
  · intro H g1 g2 pf Zs Rs B h
    cases ha : pointFromBytes q pf.a <;> cases hb : pointFromBytes q pf.b <;>
      cases hr : scalarFromBytes q pf.r <;> simp_all [BallotProof.verify]

/-- Witness for C10: a vote proof whose `c1` is empty and a ballot proof
whose `a` is empty both fail verification with `none`. -/
theorem C10_decode_failure_verify_none_witness :
    VoteProof.verify 11 hashDemo 1 1 ⟨[], [], [], []⟩
      (pointToBytes 11 0) (pointToBytes 11 0) [] [] = none ∧
    BallotProof.verify 11 hashDemo 1 1 ⟨[], [], []⟩ 0 0 [] = none :=
  ⟨(C10_decode_failure_verify_none 11).1 hashDemo 1 1 ⟨[], [], [], []⟩
      (pointToBytes 11 0) (pointToBytes 11 0) [] []
      (Or.inr (Or.inr (Or.inl (by decide)))),
    (C10_decode_failure_verify_none 11).2 hashDemo 1 1 ⟨[], [], []⟩ 0 0 []
      (Or.inl (by decide))⟩

/-- Characterization of `BallotProof::verify` on a proof built by
`BallotProof::new`: it succeeds exactly when the two verification equations
hold at the (shared) challenge. -/
theorem BallotProof.verify_new_iff [NeZero q] (hq : q < 256 ^ 32)
    (H : List Bytes → ZMod q) (g1 g2 ρ rsum Zs Rs : ZMod q) (B : Bytes) :
    BallotProof.verify q H g1 g2 (BallotProof.new q H g1 g2 ρ rsum B) Zs Rs B
        = some () ↔
      (g1 * (ρ + ballotChallenge q H g1 g2 ρ B * rsum) =
          g1 * ρ + (Zs - g1) * ballotChallenge q H g1 g2 ρ B ∧
        g2 * (ρ + ballotChallenge q H g1 g2 ρ B * rsum) =
          g2 * ρ + Rs * ballotChallenge q H g1 g2 ρ B) := by
  simp only [BallotProof.new, BallotProof.verify, pointFromBytes_toBytes hq,
    scalarFromBytes_toBytes hq, ballotChallenge]
  split_ifs with h1 h2 <;> simp_all [ne_eq]

/-- The sum of the `{0,1}`-valued vote scalars is the yes count. -/
theorem sum_map_ite_one {q : Nat} (l : List (ZMod q × Bool)) :
    (l.map fun p => (if p.2 then (1 : ZMod q) else 0)).sum =
      ((l.countP fun p => p.2 : Nat) : ZMod q) := by
  induction l with
  | nil => simp
  | cons a t ih =>
    rw [List.map_cons, List.sum_cons, ih, List.countP_cons]
    by_cases h : a.2 = true
    · simp only [h, if_true, Nat.cast_add, Nat.cast_one]
      ring
    · simp [h]

/-- A natural `k ≤ q` casts to `1` in `ZMod q` exactly when `k = 1`
(for `2 ≤ q`). -/
theorem natCast_eq_one_iff_of_le {q k : Nat} (hq2 : 2 ≤ q) (hk : k ≤ q) :
    ((k : ZMod q) = 1) ↔ k = 1 := by
  constructor
  · intro h
    have h' : (k : ZMod q) = ((1 : Nat) : ZMod q) := by
      rw [h, Nat.cast_one]
    have hmod : k % q = 1 % q := (ZMod.natCast_eq_natCast_iff k 1 q).mp h'
    have h1q : 1 % q = 1 := Nat.mod_eq_of_lt (by omega)
    rcases lt_or_eq_of_le hk with hlt | heq
    · rw [Nat.mod_eq_of_lt hlt, h1q] at hmod
      exact hmod
    · exfalso
      rw [heq, Nat.mod_self, h1q] at hmod
      omega
  · intro h
    rw [h, Nat.cast_one]

/-- C3: for a ballot whose votes satisfy `R_i = g2·r_i`, `Z_i = g1·(r_i+v_i)`
with `v_i ∈ {0,1}`, and whose proof is built by `BallotProof::new` with
`r_sum = Σ r_i`, verification against `Z_sum = Σ Z_i` and `R_sum = Σ R_i`
succeeds exactly when the yes count is one — in particular it fails when the
count is zero or at least two.  The hypotheses record the standing facts of
the instantiation: a non-identity generator, a nonzero hash challenge, and a
candidate count not exceeding the group order. -/
theorem C3_ballot_proof_iff_one_yes (q : Nat) [Fact (Nat.Prime q)]
    (hq : q < 256 ^ 32) (H : List Bytes → ZMod q) (g1 g2 ρ : ZMod q)
    (l : List (ZMod q × Bool)) (B : Bytes)
    (hg1 : g1 ≠ 0) (hc : ballotChallenge q H g1 g2 ρ B ≠ 0)
    (hk : (l.countP fun p => p.2) ≤ q) :
    (BallotProof.verify q H g1 g2
        (BallotProof.new q H g1 g2 ρ ((l.map Prod.fst).sum) B)
        ((l.map fun p => g1 * (p.1 + if p.2 then 1 else 0)).sum)
        ((l.map fun p => g2 * p.1).sum) B = some ()) ↔
      (l.countP fun p => p.2) = 1 := by
  have hprime : Nat.Prime q := Fact.out
  haveI : NeZero q := ⟨hprime.ne_zero⟩
  have hq2 : 2 ≤ q := hprime.two_le
  have hZs : (l.map fun p => g1 * (p.1 + if p.2 then 1 else 0)).sum
      = g1 * ((l.map Prod.fst).sum + ((l.countP fun p => p.2 : Nat) : ZMod q)) := by
    rw [List.sum_map_mul_left, List.sum_map_add, sum_map_ite_one]
  have hRs : (l.map fun p => g2 * p.1).sum = g2 * (l.map Prod.fst).sum :=
    List.sum_map_mul_left l Prod.fst g2
  rw [BallotProof.verify_new_iff hq, hZs, hRs]
  rw [← natCast_eq_one_iff_of_le hq2 hk]
  constructor
  · rintro ⟨h1, _⟩
    have h0 : g1 * (ballotChallenge q H g1 g2 ρ B *
        (((l.countP fun p => p.2 : Nat) : ZMod q) - 1)) = 0 := by
      linear_combination -h1
    rcases mul_eq_zero.mp h0 with h | h
    · exact absurd h hg1
    rcases mul_eq_zero.mp h with h | h
    · exact absurd h hc
    exact sub_eq_zero.mp h
  · intro h1
    rw [h1]
    constructor <;> ring

/-- Witness for C3 at `q = 11` with a single yes vote: verification succeeds
and the yes count is one. -/
theorem C3_ballot_proof_iff_one_yes_witness :
    (BallotProof.verify 11 hashDemo 1 1
        (BallotProof.new 11 hashDemo 1 1 2
          (([((3 : ZMod 11), true)].map Prod.fst).sum) [])
        (([((3 : ZMod 11), true)].map fun p => 1 * (p.1 + if p.2 then 1 else 0)).sum)
        (([((3 : ZMod 11), true)].map fun p => 1 * p.1).sum) [] = some ()) ↔
      ([((3 : ZMod 11), true)].countP fun p => p.2) = 1 :=
  C3_ballot_proof_iff_one_yes 11 (by norm_num) hashDemo 1 1 2 [(3, true)] []
    (by decide) (by decide) (by decide)

/-- `Vote::verify` on a secrets-present vote succeeds exactly when the two
secret equations hold and the vote proof verifies. -/
theorem voteVerifyS_ok_iff {q : Nat} (H : List Bytes → ZMod q) (g1 g2 : ZMod q)
    (vt : VoteS q) (B C : Bytes) :
    Vote.verifyS q H g1 g2 vt B C = .ok () ↔
      ((g1 * (vt.r + vt.v) = vt.Z ∧ g2 * vt.r = vt.R) ∧
        VoteProof.verify q H g1 g2 vt.pwf (pointToBytes q vt.Z)
          (pointToBytes q vt.R) B C = some ()) := by
  unfold Vote.verifyS
  split_ifs with h
  · cases hpv : VoteProof.verify q H g1 g2 vt.pwf (pointToBytes q vt.Z)
        (pointToBytes q vt.R) B C with
    | none => simp [hpv, h]
    | some u => cases u; simp [hpv, h]
  · simp [h]

/-- `Vote::verify` on a confirmed vote succeeds exactly when the vote proof
verifies. -/
theorem voteVerifyN_ok_iff {q : Nat} (H : List Bytes → ZMod q) (g1 g2 : ZMod q)
    (vt : VoteN q) (B C : Bytes) :
    Vote.verifyN q H g1 g2 vt B C = .ok () ↔
      VoteProof.verify q H g1 g2 vt.pwf (pointToBytes q vt.Z)
        (pointToBytes q vt.R) B C = some () := by
  unfold Vote.verifyN
  cases hpv : VoteProof.verify q H g1 g2 vt.pwf (pointToBytes q vt.Z)
      (pointToBytes q vt.R) B C with
  | none => simp [hpv]
  | some u => cases u; simp [hpv]

/-- The per-vote loop succeeds exactly when every vote verifies. -/
theorem votesVerifyS_ok_iff {q : Nat} (H : List Bytes → ZMod q) (g1 g2 : ZMod q)
    (B : Bytes) (l : List (Bytes × VoteS q)) :
    votesVerifyS q H g1 g2 B l = .ok () ↔
      ∀ p ∈ l, Vote.verifyS q H g1 g2 p.2 B p.1 = .ok () := by
  induction l with
  | nil => simp [votesVerifyS]
  | cons a t ih =>
    cases hv : Vote.verifyS q H g1 g2 a.2 B a.1 with
    | error e => simp [votesVerifyS, hv]
    | ok u => cases u; simp [votesVerifyS, hv, ih]

/-- The per-vote loop over confirmed votes succeeds exactly when every vote
verifies. -/
theorem votesVerifyN_ok_iff {q : Nat} (H : List Bytes → ZMod q) (g1 g2 : ZMod q)
    (B : Bytes) (l : List (Bytes × VoteN q)) :
    votesVerifyN q H g1 g2 B l = .ok () ↔
      ∀ p ∈ l, Vote.verifyN q H g1 g2 p.2 B p.1 = .ok () := by
  induction l with
  | nil => simp [votesVerifyN]
  | cons a t ih =>
    cases hv : Vote.verifyN q H g1 g2 a.2 B a.1 with
    | error e => simp [votesVerifyN, hv]
    | ok u => cases u; simp [votesVerifyN, hv, ih]

/-- `Ballot::verify` on an audited ballot decomposes into the per-vote loop
and the sum-proof check. -/
theorem ballotVerifyS_ok_iff {q : Nat} (H : List Bytes → ZMod q) (g1 g2 : ZMod q)
    (b : Ballot (VoteS q)) (B : Bytes) :
    Ballot.verifyS q H g1 g2 b B = .ok () ↔
      (votesVerifyS q H g1 g2 B b.votes = .ok () ∧
        BallotProof.verify q H g1 g2 b.pwf ((b.votes.map fun p => p.2.Z).sum)
          ((b.votes.map fun p => p.2.R).sum) B = some ()) := by
  unfold Ballot.verifyS
  cases hv : votesVerifyS q H g1 g2 B b.votes with
  | error e => simp [hv]
  | ok u =>
    cases u
    cases hbp : BallotProof.verify q H g1 g2 b.pwf ((b.votes.map fun p => p.2.Z).sum)
        ((b.votes.map fun p => p.2.R).sum) B with
    | none => simp [hbp]
    | some w => cases w; simp [hbp]

/-- `Ballot::verify` on a confirmed ballot decomposes into the per-vote loop
and the sum-proof check. -/
theorem ballotVerifyN_ok_iff {q : Nat} (H : List Bytes → ZMod q) (g1 g2 : ZMod q)
    (b : Ballot (VoteN q)) (B : Bytes) :
    Ballot.verifyN q H g1 g2 b B = .ok () ↔
      (votesVerifyN q H g1 g2 B b.votes = .ok () ∧
        BallotProof.verify q H g1 g2 b.pwf ((b.votes.map fun p => p.2.Z).sum)
          ((b.votes.map fun p => p.2.R).sum) B = some ()) := by
  unfold Ballot.verifyN
  cases hv : votesVerifyN q H g1 g2 B b.votes with
  | error e => simp [hv]
  | ok u =>
    cases u
    cases hbp : BallotProof.verify q H g1 g2 b.pwf ((b.votes.map fun p => p.2.Z).sum)
        ((b.votes.map fun p => p.2.R).sum) B with
    | none => simp [hbp]
    | some w => cases w; simp [hbp]

/-- C4 counterexample: the claim's "if and only if" fails on the code, which
never checks `v ∈ {0,1}` directly.  Under a legal group instantiation whose
hash is constantly zero, a ballot holding a vote with `v = 2` (and forged
proofs) passes `Ballot::verify`, yet the claimed right-hand side is false. -/
theorem C4_audited_ballot_verify_counterexample :
    ¬ (Ballot.verifyS 11 hashZero 1 1 cexBallot [] = .ok () ↔
      ((∀ p ∈ cexBallot.votes,
          (1 * (p.2.r + p.2.v) = p.2.Z ∧ 1 * p.2.r = p.2.R) ∧
          (p.2.v = 0 ∨ p.2.v = 1) ∧
          VoteProof.verify 11 hashZero 1 1 p.2.pwf (pointToBytes 11 p.2.Z)
            (pointToBytes 11 p.2.R) [] p.1 = some ()) ∧
        BallotProof.verify 11 hashZero 1 1 cexBallot.pwf
          ((cexBallot.votes.map fun p => p.2.Z).sum)
          ((cexBallot.votes.map fun p => p.2.R).sum) [] = some ())) := by
  decide

/-- C4 (amended): for every ballot that still carries its secrets,
`Ballot::verify` succeeds if and only if every contained vote satisfies
`Z = g1·(r+v)` and `R = g2·r` and its disjunctive proof verifies, and the
ballot's sum proof verifies.  (The code does not separately check
`v ∈ {0,1}`; that property is only guaranteed computationally by the
disjunctive proof, so the claim's extra `v ∈ {0,1}` conjunct had to be
dropped.) -/
theorem C4_audited_ballot_verify_iff (q : Nat) (H : List Bytes → ZMod q)
    (g1 g2 : ZMod q) (b : Ballot (VoteS q)) (B : Bytes) :
    Ballot.verifyS q H g1 g2 b B = .ok () ↔
      ((∀ p ∈ b.votes,
          (g1 * (p.2.r + p.2.v) = p.2.Z ∧ g2 * p.2.r = p.2.R) ∧
          VoteProof.verify q H g1 g2 p.2.pwf (pointToBytes q p.2.Z)
            (pointToBytes q p.2.R) B p.1 = some ()) ∧
        BallotProof.verify q H g1 g2 b.pwf ((b.votes.map fun p => p.2.Z).sum)
          ((b.votes.map fun p => p.2.R).sum) B = some ()) := by
  rw [ballotVerifyS_ok_iff, votesVerifyS_ok_iff]
  constructor
  · rintro ⟨h1, h2⟩
    exact ⟨fun p hp => (voteVerifyS_ok_iff H g1 g2 p.2 B p.1).mp (h1 p hp), h2⟩
  · rintro ⟨h1, h2⟩
    exact ⟨fun p hp => (voteVerifyS_ok_iff H g1 g2 p.2 B p.1).mpr (h1 p hp), h2⟩

/-- Two sorted association lists with duplicate-free keys that are
permutations of each other are equal. -/
theorem keyLe_sorted_perm_eq {V : Type} :
    ∀ {l1 l2 : List (Bytes × V)}, l1.Perm l2 → (l1.map Prod.fst).Nodup →
      l1.Sorted keyLe → l2.Sorted keyLe → l1 = l2 := by
  intro l1
  induction l1 with
  | nil =>
    intro l2 hp _ _ _
    exact (hp.symm.eq_nil).symm
  | cons a t1 ih =>
    intro l2 hp hnd hs1 hs2
    cases l2 with
    | nil => simp at hp
    | cons b t2 =>
      have hab : a = b := by
        have ha2 : a ∈ b :: t2 := hp.mem_iff.mp (List.mem_cons_self a t1)
        have hb1 : b ∈ a :: t1 := hp.mem_iff.mpr (List.mem_cons_self b t2)
        rcases List.mem_cons.mp ha2 with h | h
        · exact h
        rcases List.mem_cons.mp hb1 with h' | h'
        · exact h'.symm
        · exfalso
          have h1 : keyLe a b := List.rel_of_sorted_cons hs1 b h'
          have h2 : keyLe b a := List.rel_of_sorted_cons hs2 a h
          have hkey : a.1 = b.1 := le_antisymm h1 h2
          have hnd2 : ((b :: t2).map Prod.fst).Nodup :=
            ((hp.map Prod.fst).nodup_iff).mp hnd
          rw [List.map_cons, List.nodup_cons] at hnd2
          exact hnd2.1 (hkey ▸ List.mem_map_of_mem Prod.fst h)
      subst hab
      have hp' : t1.Perm t2 := hp.cons_inv
      rw [ih hp' (by
          rw [List.map_cons, List.nodup_cons] at hnd
          exact hnd.2) hs1.of_cons hs2.of_cons]

/-- C6: `Ballot::to_bytes` is deterministic — its output depends only on the
candidate-to-vote map contents, not on the hash map's iteration order — and
it emits, in ascending candidate-identifier byte order, each candidate's id
followed by its vote's bytes, then the ballot-proof bytes. -/
theorem C6_ballot_to_bytes_deterministic {V : Type} (voteBytes : V → Bytes)
    (votes1 votes2 : List (Bytes × V)) (pwf : BallotProof)
    (hperm : votes1.Perm votes2) (hnd : (votes1.map Prod.fst).Nodup) :
    Ballot.toBytes voteBytes ⟨votes1, pwf⟩ = Ballot.toBytes voteBytes ⟨votes2, pwf⟩ ∧
    ∃ l : List (Bytes × V), l.Perm votes1 ∧ l.Sorted keyLe ∧
      Ballot.toBytes voteBytes ⟨votes1, pwf⟩ =
        l.foldl (fun acc p => acc ++ p.1 ++ voteBytes p.2) [] ++
          BallotProof.toBytes pwf := by
  have hsorted_eq : List.insertionSort keyLe votes1 = List.insertionSort keyLe votes2 := by
    apply keyLe_sorted_perm_eq
    · exact (List.perm_insertionSort keyLe votes1).trans
        (hperm.trans (List.perm_insertionSort keyLe votes2).symm)
    · exact ((List.perm_insertionSort keyLe votes1).map Prod.fst).nodup_iff.mpr hnd
    · exact List.sorted_insertionSort keyLe votes1
    · exact List.sorted_insertionSort keyLe votes2
  constructor
  · unfold Ballot.toBytes
    rw [hsorted_eq]
  · exact ⟨List.insertionSort keyLe votes1, List.perm_insertionSort keyLe votes1,
      List.sorted_insertionSort keyLe votes1, rfl⟩

/-- Witness for C6: the two orders of a two-entry vote map serialize to the
same bytes, which follow the sorted candidate order. -/
theorem C6_ballot_to_bytes_deterministic_witness :
    Ballot.toBytes (fun n => [n]) ⟨[([1], (10 : Nat)), ([2], 20)], pfDemo⟩ =
      Ballot.toBytes (fun n => [n]) ⟨[([2], (20 : Nat)), ([1], 10)], pfDemo⟩ ∧
    ∃ l : List (Bytes × Nat), l.Perm [([1], (10 : Nat)), ([2], 20)] ∧ l.Sorted keyLe ∧
      Ballot.toBytes (fun n => [n]) ⟨[([1], (10 : Nat)), ([2], 20)], pfDemo⟩ =
        l.foldl (fun acc p => acc ++ p.1 ++ [p.2]) [] ++ BallotProof.toBytes pfDemo :=
  C6_ballot_to_bytes_deterministic (fun n => [n]) [([1], 10), ([2], 20)]
    [([2], 20), ([1], 10)] pfDemo (by decide) (by decide)

/-- The no-votes loop fails exactly when it would introduce a duplicate
candidate (relative to the accumulated map and within the remaining list). -/
theorem ballotNoVotes_none_iff {q : Nat} (H : List Bytes → ZMod q)
    (g1 g2 : ZMod q) (rng : Nat → ZMod q) (B : Bytes) :
    ∀ (cs : List Bytes) (k : Nat) (m : List (Bytes × VoteS q)),
      (m.map Prod.fst).Nodup →
      (ballotNoVotes q H g1 g2 rng B cs k m = none ↔
        ¬ (m.map Prod.fst ++ cs).Nodup) := by
  intro cs
  induction cs with
  | nil =>
    intro k m hm
    simp [ballotNoVotes, hm]
  | cons c cs ih =>
    intro k m hm
    by_cases hc : c ∈ m.map Prod.fst
    · have hdup : ¬ (m.map Prod.fst ++ c :: cs).Nodup := by
        intro hnd
        rcases List.nodup_append.mp hnd with ⟨_, _, hdisj⟩
        exact hdisj hc (List.mem_cons_self c cs)
      simp [ballotNoVotes, insertVote, hc, hdup]
    · have hm' : ((m ++ [(c, Vote.new q H g1 g2 B c false
          (rng k) (rng (k + 1)) (rng (k + 2)) (rng (k + 3)))]).map Prod.fst).Nodup := by
        rw [List.map_append]
        refine List.Nodup.append hm (by simp) ?_
        intro x hx hx'
        simp only [List.map_cons, List.map_nil, List.mem_singleton] at hx'
        exact hc (hx' ▸ hx)
      have := ih (k + 4) _ hm'
      rw [List.map_append] at this
      simp only [ballotNoVotes, insertVote, hc, if_false, List.map_cons,
        List.map_nil] at this ⊢
      rw [this, List.append_assoc]
      simp

/-- Shape of a successful no-votes loop: it appends one `v = 0` vote per
listed candidate, in order. -/
theorem ballotNoVotes_some_spec {q : Nat} (H : List Bytes → ZMod q)
    (g1 g2 : ZMod q) (rng : Nat → ZMod q) (B : Bytes) :
    ∀ (cs : List Bytes) (k : Nat) (m votes : List (Bytes × VoteS q)),
      ballotNoVotes q H g1 g2 rng B cs k m = some votes →
      votes.map Prod.fst = m.map Prod.fst ++ cs ∧
      ∀ p ∈ votes, p ∈ m ∨ (p.1 ∈ cs ∧ ∃ r ρ f1 f2,
        p.2 = Vote.new q H g1 g2 B p.1 false r ρ f1 f2) := by
  intro cs
  induction cs with
  | nil =>
    intro k m votes h
    simp only [ballotNoVotes] at h
    cases h
    exact ⟨by simp, fun p hp => Or.inl hp⟩
  | cons c cs ih =>
    intro k m votes h
    by_cases hc : c ∈ m.map Prod.fst
    · simp [ballotNoVotes, insertVote, hc] at h
    · simp only [ballotNoVotes, insertVote, hc, if_false] at h
      have hrec := ih (k + 4) _ votes h
      rcases hrec with ⟨hkeys, hmem⟩
      constructor
      · rw [hkeys, List.map_append, List.append_assoc]
        simp
      · intro p hp
        rcases hmem p hp with hpm | ⟨hcs, hsp⟩
        · rcases List.mem_append.mp hpm with hpm' | hpc
          · exact Or.inl hpm'
          · simp only [List.mem_singleton] at hpc
            subst hpc
            exact Or.inr ⟨List.mem_cons_self _ _,
              rng k, rng (k + 1), rng (k + 2), rng (k + 3), rfl⟩
        · exact Or.inr ⟨List.mem_cons_of_mem _ hcs, hsp⟩

/-- Shape of a successful `Ballot::new`: the vote keys are exactly
`yes :: nos` in order, every vote is a `Vote::new` with the right yes flag,
and the ballot proof is a `BallotProof::new` over the votes' `r` sum. -/
theorem Ballot.new_some_spec {q : Nat} (H : List Bytes → ZMod q)
    (g1 g2 : ZMod q) (rng : Nat → ZMod q) (B yes : Bytes) (nos : List Bytes)
    (b : Ballot (VoteS q)) (h : Ballot.new q H g1 g2 rng B yes nos = some b) :
    b.votes.map Prod.fst = yes :: nos ∧
    (∀ p ∈ b.votes, ∃ yesFlag r ρ f1 f2,
      p.2 = Vote.new q H g1 g2 B p.1 yesFlag r ρ f1 f2 ∧
      (yesFlag = true ↔ p.1 = yes)) ∧
    b.pwf = BallotProof.new q H g1 g2 (rng (4 * (nos.length + 1)))
      ((b.votes.map fun p => p.2.r).sum) B := by
  simp only [Ballot.new, insertVote, List.map_nil, List.not_mem_nil,
    if_false, List.nil_append] at h
  cases hnv : ballotNoVotes q H g1 g2 rng B nos 4
      [(yes, Vote.new q H g1 g2 B yes true (rng 0) (rng 1) (rng 2) (rng 3))] with
  | none => rw [hnv] at h; cases h
  | some votes =>
    rw [hnv] at h
    cases h
    have hspec := ballotNoVotes_some_spec H g1 g2 rng B nos 4 _ votes hnv
    rcases hspec with ⟨hkeys, hmem⟩
    simp only [List.map_cons, List.map_nil, List.singleton_append] at hkeys
    have hnodup : (yes :: nos).Nodup := by
      by_contra hnd
      have hnone := (ballotNoVotes_none_iff H g1 g2 rng B nos 4
        [(yes, Vote.new q H g1 g2 B yes true (rng 0) (rng 1) (rng 2) (rng 3))]
        (by simp)).mpr (by simpa using hnd)
      rw [hnone] at hnv
      cases hnv
    have hyesnotin : yes ∉ nos := (List.nodup_cons.mp hnodup).1
    refine ⟨hkeys, ?_, rfl⟩
    intro p hp
    rcases hmem p hp with hpm | ⟨hcs, r, ρ, f1, f2, hsp⟩
    · simp only [List.mem_singleton] at hpm
      subst hpm
      exact ⟨true, rng 0, rng 1, rng 2, rng 3, rfl, by simp⟩
    · refine ⟨false, r, ρ, f1, f2, hsp, ?_⟩
      constructor
      · intro hf; cases hf
      · intro hpy
        exact absurd (hpy ▸ hcs) hyesnotin

/-- C8: `Ballot::new` (the body of `create_ballot`) fails exactly when the
combined candidate list `yes :: nos` contains a duplicate identifier; on
success the ballot holds exactly one vote per supplied candidate, with
`v = 1` for the yes candidate and `v = 0` for every other. -/
theorem C8_ballot_new_spec (q : Nat) (H : List Bytes → ZMod q)
    (g1 g2 : ZMod q) (rng : Nat → ZMod q) (B yes : Bytes) (nos : List Bytes) :
    (Ballot.new q H g1 g2 rng B yes nos = none ↔ ¬ (yes :: nos).Nodup) ∧
    ∀ b, Ballot.new q H g1 g2 rng B yes nos = some b →
      b.votes.map Prod.fst = yes :: nos ∧
      ∀ p ∈ b.votes, p.2.v = if p.1 = yes then 1 else 0 := by
  constructor
  · simp only [Ballot.new, insertVote, List.map_nil, List.not_mem_nil,
      if_false, List.nil_append]
    have hiff := ballotNoVotes_none_iff H g1 g2 rng B nos 4
      [(yes, Vote.new q H g1 g2 B yes true (rng 0) (rng 1) (rng 2) (rng 3))]
      (by simp)
    cases hnv : ballotNoVotes q H g1 g2 rng B nos 4
        [(yes, Vote.new q H g1 g2 B yes true (rng 0) (rng 1) (rng 2) (rng 3))] with
    | none =>
      rw [hnv] at hiff
      simpa using hiff.mp rfl
    | some votes =>
      rw [hnv] at hiff
      simp only [List.map_cons, List.map_nil, List.singleton_append] at hiff
      constructor
      · intro h; cases h
      · intro hnd
        exact absurd (by simpa using (fun h => hnd h)) (by
          intro hfalse
          exact (by simpa [hfalse] using hiff.mpr hnd : False))
  · intro b hb
    rcases Ballot.new_some_spec H g1 g2 rng B yes nos b hb with ⟨hkeys, hmem, _⟩
    refine ⟨hkeys, ?_⟩
    intro p hp
    rcases hmem p hp with ⟨flag, r, ρ, f1, f2, hv, hflag⟩
    cases flag
    · have hne : ¬ p.1 = yes := fun hpy => by
        have := hflag.mpr hpy
        cases this
      rw [hv]
      simp [Vote.new, hne]
    · have hpy : p.1 = yes := hflag.mp rfl
      rw [hv]
      simp [Vote.new, hpy]

/-- Lookup fails exactly on missing keys. -/
theorem alookup_eq_none_iff {β : Type} (m : List (Bytes × β)) (c : Bytes) :
    alookup m c = none ↔ c ∉ m.map Prod.fst := by
  induction m with
  | nil => simp [alookup]
  | cons p rest ih =>
    simp only [alookup, List.map_cons, List.mem_cons]
    by_cases h : p.1 = c
    · simp [h]
    · rw [if_neg h, ih]
      constructor
      · intro hnc hor
        rcases hor with he | hc'
        · exact h he.symm
        · exact hnc hc'
      · intro hnor hc'
        exact hnor (Or.inr hc')

/-- The explicit form of a successful `incTotals`. -/
theorem incTotals_some_eq {q : Nat} (t t' : TotalsMap q) (c : Bytes)
    (v r : ZMod q) (h : incTotals q t c v r = some t') :
    t' = t.map fun p =>
      if p.1 = c then (p.1, ⟨p.2.tally + v, p.2.r_sum + r⟩) else p := by
  unfold incTotals at h
  split_ifs at h with hc
  exact (Option.some_inj.mp h).symm

/-- A successful `incTotals` leaves the key list unchanged. -/
theorem incTotals_some_keys {q : Nat} (t t' : TotalsMap q) (c : Bytes)
    (v r : ZMod q) (h : incTotals q t c v r = some t') :
    t'.map Prod.fst = t.map Prod.fst := by
  rw [incTotals_some_eq t t' c v r h, List.map_map]
  apply List.map_congr_left
  intro p _
  by_cases hp : p.1 = c <;> simp [hp]

/-- A successful `incTotals` leaves other keys' entries unchanged. -/
theorem incTotals_some_other {q : Nat} (t t' : TotalsMap q) (c c' : Bytes)
    (v r : ZMod q) (h : incTotals q t c v r = some t') (hne : c' ≠ c) :
    alookup t' c' = alookup t c' := by
  rw [incTotals_some_eq t t' c v r h]
  clear h
  induction t with
  | nil => rfl
  | cons p rest ih =>
    by_cases hpc : p.1 = c
    · have hp' : ¬ p.1 = c' := fun he => hne (by rw [← he, hpc])
      simp only [List.map_cons, alookup, if_pos hpc]
      rw [if_neg hp', if_neg hp']
      exact ih
    · simp only [List.map_cons, alookup, if_neg hpc]
      rw [ih]

/-- A successful `incTotals` adds `v` and `r` to the target entry. -/
theorem incTotals_some_self {q : Nat} (t t' : TotalsMap q) (c : Bytes)
    (v r : ZMod q) (tot : CandidateTotals q) (h : incTotals q t c v r = some t')
    (htot : alookup t c = some tot) :
    alookup t' c = some ⟨tot.tally + v, tot.r_sum + r⟩ := by
  rw [incTotals_some_eq t t' c v r h]
  clear h
  induction t with
  | nil => cases htot
  | cons p rest ih =>
    by_cases hpc : p.1 = c
    · rw [alookup, if_pos hpc] at htot
      have htot' : p.2 = tot := Option.some_inj.mp htot
      simp only [List.map_cons, alookup, if_pos hpc]
      rw [htot']
    · rw [alookup, if_neg hpc] at htot
      simp only [List.map_cons, alookup, if_neg hpc]
      exact ih htot

/-- `incTotals` panics exactly on a missing key. -/
theorem incTotals_none_iff {q : Nat} (t : TotalsMap q) (c : Bytes) (v r : ZMod q) :
    incTotals q t c v r = none ↔ c ∉ t.map Prod.fst := by
  unfold incTotals
  split_ifs with hc <;> simp [hc]

/-- The confirm loop panics when some vote's candidate is missing from the
totals map. -/
theorem confirmTrace_panics {q : Nat} :
    ∀ (votes : List (Bytes × VoteS q)) (t : TotalsMap q),
      (∃ p ∈ votes, alookup t p.1 = none) →
      (confirmTrace q votes t).2 = true := by
  intro votes
  induction votes with
  | nil => rintro t ⟨p, hp, _⟩; cases hp
  | cons a rest ih =>
    rintro t ⟨p, hp, hmiss⟩
    rcases List.mem_cons.mp hp with hpa | hpr
    · subst hpa
      have hnone : incTotals q t p.1 p.2.v p.2.r = none :=
        (incTotals_none_iff t p.1 p.2.v p.2.r).mpr
          ((alookup_eq_none_iff t p.1).mp hmiss)
      simp [confirmTrace, hnone]
    · cases hinc : incTotals q t a.1 a.2.v a.2.r with
      | none => simp [confirmTrace, hinc]
      | some t' =>
        simp only [confirmTrace, hinc]
        apply ih
        refine ⟨p, hpr, ?_⟩
        rw [alookup_eq_none_iff, incTotals_some_keys t t' a.1 a.2.v a.2.r hinc]
        exact (alookup_eq_none_iff t p.1).mp hmiss

/-- `confirmTotals` returns `none` exactly when the trace records a panic. -/
theorem confirmTotals_none_iff_trace {q : Nat} :
    ∀ (votes : List (Bytes × VoteS q)) (t : TotalsMap q),
      confirmTotals q votes t = none ↔ (confirmTrace q votes t).2 = true := by
  intro votes
  induction votes with
  | nil => intro t; simp [confirmTotals, confirmTrace]
  | cons a rest ih =>
    intro t
    cases hinc : incTotals q t a.1 a.2.v a.2.r with
    | none => simp [confirmTotals, confirmTrace, hinc]
    | some t' => simp [confirmTotals, confirmTrace, hinc, ih]

/-- Keys not among the processed votes keep their entries in the trace
state. -/
theorem confirmTrace_other {q : Nat} :
    ∀ (votes : List (Bytes × VoteS q)) (t : TotalsMap q) (c : Bytes),
      c ∉ votes.map Prod.fst →
      alookup (confirmTrace q votes t).1 c = alookup t c := by
  intro votes
  induction votes with
  | nil => intro t c _; rfl
  | cons a rest ih =>
    intro t c hc
    simp only [List.map_cons, List.mem_cons, not_or] at hc
    cases hinc : incTotals q t a.1 a.2.v a.2.r with
    | none => simp [confirmTrace, hinc]
    | some t' =>
      simp only [confirmTrace, hinc]
      rw [ih t' c hc.2]
      exact incTotals_some_other t t' a.1 c a.2.v a.2.r hinc hc.1

/-- C9: if `Ballot::confirm` is called with `Some(totals)` and `totals`
lacks an entry for some candidate of the ballot, the call panics (`unwrap`
on a missing key, modelled as `none`) rather than returning an error value;
and an entry for a candidate processed before the missing one has already
been incremented at the moment of the panic, so the operation is not atomic
on error. -/
theorem C9_confirm_panics_not_atomic (q : Nat) (c0 : Bytes) (vt0 : VoteS q)
    (rest : List (Bytes × VoteS q)) (pwfb : BallotProof) (t : TotalsMap q)
    (tot0 : CandidateTotals q)
    (hnd : (((c0, vt0) :: rest).map Prod.fst).Nodup)
    (h0 : alookup t c0 = some tot0)
    (hmiss : ∃ p ∈ rest, alookup t p.1 = none) :
    Ballot.confirm q ⟨(c0, vt0) :: rest, pwfb⟩ (some t) = none ∧
    alookup (confirmTrace q ((c0, vt0) :: rest) t).1 c0 =
      some ⟨tot0.tally + vt0.v, tot0.r_sum + vt0.r⟩ := by
  have hc0mem : c0 ∈ t.map Prod.fst := by
    by_contra hmem
    rw [← alookup_eq_none_iff] at hmem
    rw [hmem] at h0
    cases h0
  cases hinc : incTotals q t c0 vt0.v vt0.r with
  | none =>
    rw [incTotals_none_iff] at hinc
    exact absurd hc0mem hinc
  | some t' =>
    have hmiss' : ∃ p ∈ rest, alookup t' p.1 = none := by
      rcases hmiss with ⟨p, hp, hnone⟩
      refine ⟨p, hp, ?_⟩
      rw [alookup_eq_none_iff,
        incTotals_some_keys t t' c0 vt0.v vt0.r hinc]
      exact (alookup_eq_none_iff t p.1).mp hnone
    have hpanic : (confirmTrace q rest t').2 = true :=
      confirmTrace_panics rest t' hmiss'
    have hnone' : confirmTotals q rest t' = none :=
      (confirmTotals_none_iff_trace rest t').mpr hpanic
    constructor
    · simp [Ballot.confirm, confirmTotals, hinc, hnone']
    · simp only [confirmTrace, hinc]
      have hc0rest : c0 ∉ rest.map Prod.fst := by
        simp only [List.map_cons, List.nodup_cons] at hnd
        exact hnd.1
      rw [confirmTrace_other rest t' c0 hc0rest]
      exact incTotals_some_self t t' c0 vt0.v vt0.r tot0 hinc h0

/-- Witness for C9: a two-vote ballot confirmed into a totals map missing
its second candidate panics, with the first candidate's entry already
incremented. -/
theorem C9_confirm_panics_not_atomic_witness :
    Ballot.confirm 11 ⟨[([1], cexVote), ([2], cexVote)], pfDemo⟩
      (some [([1], ⟨4, 5⟩)]) = none ∧
    alookup (confirmTrace 11 [([1], cexVote), ([2], cexVote)]
      [([1], ⟨4, 5⟩)]).1 [1] = some ⟨4 + cexVote.v, 5 + cexVote.r⟩ :=
  C9_confirm_panics_not_atomic 11 [1] cexVote [([2], cexVote)] pfDemo
    [([1], ⟨4, 5⟩)] ⟨4, 5⟩ (by decide) (by decide)
    ⟨([2], cexVote), by decide, by decide⟩

/-- C7: the claim says ballot and vote construction draw every random
scalar from the caller-supplied RNG, never from the default global RNG, so
two runs with identical inputs and identical caller RNG streams produce
identical results.  The `election.rs` revision of `create_vote` (line 342)
draws the secret `r` from `rand::thread_rng()`: holding the caller RNG
stream fixed while the global generator's stream differs yields different
votes, refuting the determinism statement for that revision — a slip, since
the latest revision (`Vote::new` in `ballots.rs`) draws everything from the
caller's RNG, as does the rest of `create_vote` itself. -/
theorem C7_create_vote_thread_rng_dependence :
    (Election.createVote 11 hashDemo 1 1 rngDemo (fun _ => 0) [] [] true).r = 0 ∧
    (Election.createVote 11 hashDemo 1 1 rngDemo (fun _ => 1) [] [] true).r = 1 ∧
    Election.createVote 11 hashDemo 1 1 rngDemo (fun _ => 0) [] [] true ≠
      Election.createVote 11 hashDemo 1 1 rngDemo (fun _ => 1) [] [] true := by
  decide

/-- Witness for C8 at a concrete two-candidate call. -/
theorem C8_ballot_new_spec_witness :
    (Ballot.new 11 hashDemo 1 1 rngDemo [] [1] [[2]] = none ↔
      ¬ (([1] : Bytes) :: [[2]]).Nodup) ∧
    ∀ b, Ballot.new 11 hashDemo 1 1 rngDemo [] [1] [[2]] = some b →
      b.votes.map Prod.fst = [1] :: [[2]] ∧
      ∀ p ∈ b.votes, p.2.v = if p.1 = [1] then 1 else 0 :=
  C8_ballot_new_spec 11 hashDemo 1 1 rngDemo [] [1] [[2]]

/-- The per-ballot loop of `Election::verify` succeeds exactly when every
ballot verifies. -/
theorem ballotsCheck_ok_iff {q : Nat} (H : List Bytes → ZMod q)
    (g1 g2 : ZMod q) (ballots : List (Bytes × Ballot (VoteN q))) :
    ballotsCheck q H g1 g2 ballots = .ok () ↔
      ∀ p ∈ ballots, Ballot.verifyN q H g1 g2 p.2 p.1 = .ok () := by
  induction ballots with
  | nil => simp [ballotsCheck]
  | cons a rest ih =>
    cases hv : Ballot.verifyN q H g1 g2 a.2 a.1 with
    | error e => simp [ballotsCheck, hv]
    | ok u => cases u; simp [ballotsCheck, hv, ih]

/-- Entry of an `upsertTrue` at its own key. -/
theorem upsertTrue_lookup_self {q : Nat} (m : List (Bytes × (ZMod q × ZMod q)))
    (c : Bytes) (Z R : ZMod q) :
    alookup (upsertTrue q m c Z R) c =
      match alookup m c with
      | some zr => some (zr.1 + Z, zr.2 + R)
      | none => some (0 + Z, 0 + R) := by
  unfold upsertTrue
  split_ifs with hc
  · induction m with
    | nil => cases hc
    | cons p rest ih =>
      by_cases hpc : p.1 = c
      · simp [alookup, hpc]
      · simp only [List.map_cons, List.mem_cons] at hc
        rcases hc with hc1 | hc2
        · exact absurd hc1.symm hpc
        · simp only [List.map_cons, alookup, if_neg hpc]
          exact ih hc2
  · rw [← alookup_eq_none_iff] at hc
    rw [hc]
    induction m with
    | nil => simp [alookup]
    | cons p rest ih =>
      by_cases hpc : p.1 = c
      · rw [alookup, if_pos hpc] at hc
        cases hc
      · rw [alookup, if_neg hpc] at hc
        simp only [List.cons_append, alookup, if_neg hpc]
        exact ih hc

/-- Entry of an `upsertTrue` at another key. -/
theorem upsertTrue_lookup_other {q : Nat} (m : List (Bytes × (ZMod q × ZMod q)))
    (c c' : Bytes) (Z R : ZMod q) (hne : c' ≠ c) :
    alookup (upsertTrue q m c Z R) c' = alookup m c' := by
  unfold upsertTrue
  split_ifs with hc
  · clear hc
    induction m with
    | nil => rfl
    | cons p rest ih =>
      by_cases hpc : p.1 = c
      · have hp' : ¬ p.1 = c' := fun he => hne (by rw [← he, hpc])
        simp only [List.map_cons, alookup, if_pos hpc]
        rw [if_neg hp', if_neg hp']
        exact ih
      · simp only [List.map_cons, alookup, if_neg hpc]
        by_cases hp' : p.1 = c'
        · rw [if_pos hp', if_pos hp']
        · rw [if_neg hp', if_neg hp']
          exact ih
  · induction m with
    | nil =>
      simp only [List.nil_append, alookup]
      rw [if_neg (fun he => hne he.symm)]
    | cons p rest ih =>
      simp only [List.map_cons, List.mem_cons, not_or] at hc
      simp only [List.cons_append, alookup]
      by_cases hp' : p.1 = c'
      · rw [if_pos hp', if_pos hp']
      · rw [if_neg hp', if_neg hp']
        exact ih hc.2

/-- Entry of the true-totals accumulation over one vote list. -/
theorem upsertFold_lookup {q : Nat} (c : Bytes) :
    ∀ (votes : List (Bytes × VoteN q)) (m : List (Bytes × (ZMod q × ZMod q))),
      alookup (votes.foldl (fun m' p => upsertTrue q m' p.1 p.2.Z p.2.R) m) c =
        match alookup m c with
        | some zr =>
          some (zr.1 + ((votes.filter fun p => p.1 = c).map fun p => p.2.Z).sum,
            zr.2 + ((votes.filter fun p => p.1 = c).map fun p => p.2.R).sum)
        | none =>
          if c ∈ votes.map Prod.fst then
            some (((votes.filter fun p => p.1 = c).map fun p => p.2.Z).sum,
              ((votes.filter fun p => p.1 = c).map fun p => p.2.R).sum)
          else none := by
  intro votes
  induction votes with
  | nil =>
    intro m
    cases h : alookup m c <;> simp [h]
  | cons p votes ih =>
    intro m
    simp only [List.foldl_cons]
    rw [ih]
    by_cases hpc : p.1 = c
    · rw [hpc, upsertTrue_lookup_self]
      cases h : alookup m c <;>
        simp [h, List.filter_cons, hpc, add_assoc, zero_add]
    · have hne : ¬ c = p.1 := fun he => hpc he.symm
      rw [upsertTrue_lookup_other m p.1 c p.2.Z p.2.R hne]
      cases h : alookup m c with
      | some zr => simp [h, List.filter_cons, hpc]
      | none =>
        by_cases hm : c ∈ votes.map Prod.fst <;>
          simp [h, List.filter_cons, hpc, hm, List.mem_cons, hne]

/-- Entry of the true-totals accumulation over one ballot. -/
theorem trueTotalsBallot_lookup {q : Nat} (c : Bytes) (b : Ballot (VoteN q))
    (m : List (Bytes × (ZMod q × ZMod q))) :
    alookup (trueTotalsBallot q m b) c =
      match alookup m c with
      | some zr => some (zr.1 + candZ q b c, zr.2 + candR q b c)
      | none =>
        if c ∈ b.votes.map Prod.fst then some (candZ q b c, candR q b c)
        else none := by
  have h := upsertFold_lookup c b.votes m
  simpa [trueTotalsBallot, candZ, candR] using h

/-- A candidate absent from a ballot contributes a zero `Z` sum. -/
theorem candZ_eq_zero {q : Nat} (c : Bytes) (b : Ballot (VoteN q))
    (h : c ∉ b.votes.map Prod.fst) : candZ q b c = 0 := by
  unfold candZ
  have hf : b.votes.filter (fun p => p.1 = c) = [] := by
    rw [List.filter_eq_nil_iff]
    intro p hp hc
    simp only [decide_eq_true_eq] at hc
    exact h (hc ▸ List.mem_map_of_mem Prod.fst hp)
  rw [hf]
  rfl

/-- A candidate absent from a ballot contributes a zero `R` sum. -/
theorem candR_eq_zero {q : Nat} (c : Bytes) (b : Ballot (VoteN q))
    (h : c ∉ b.votes.map Prod.fst) : candR q b c = 0 := by
  unfold candR
  have hf : b.votes.filter (fun p => p.1 = c) = [] := by
    rw [List.filter_eq_nil_iff]
    intro p hp hc
    simp only [decide_eq_true_eq] at hc
    exact h (hc ▸ List.mem_map_of_mem Prod.fst hp)
  rw [hf]
  rfl

/-- Entry of the full true-totals accumulation. -/
theorem trueTotalsFold_lookup {q : Nat} (c : Bytes) :
    ∀ (ballots : List (Bytes × Ballot (VoteN q)))
      (m : List (Bytes × (ZMod q × ZMod q))),
      alookup (ballots.foldl (fun m' p => trueTotalsBallot q m' p.2) m) c =
        match alookup m c with
        | some zr =>
          some (zr.1 + electionZ q ballots c, zr.2 + electionR q ballots c)
        | none =>
          if c ∈ electionCandidates q ballots then
            some (electionZ q ballots c, electionR q ballots c)
          else none := by
  intro ballots
  induction ballots with
  | nil =>
    intro m
    cases h : alookup m c <;> simp [h, electionZ, electionR, electionCandidates]
  | cons a rest ih =>
    intro m
    simp only [List.foldl_cons]
    rw [ih, trueTotalsBallot_lookup]
    have hcands : electionCandidates q ((a :: rest)) =
        a.2.votes.map Prod.fst ++ electionCandidates q rest := by
      simp [electionCandidates]
    have hZ : electionZ q (a :: rest) c = candZ q a.2 c + electionZ q rest c := by
      simp [electionZ]
    have hR : electionR q (a :: rest) c = candR q a.2 c + electionR q rest c := by
      simp [electionR]
    cases h : alookup m c with
    | some zr =>
      simp [h, hZ, hR, add_assoc]
    | none =>
      by_cases hmem : c ∈ a.2.votes.map Prod.fst
      · by_cases hrest : c ∈ electionCandidates q rest <;>
          simp [h, hmem, hrest, hcands, hZ, hR, List.mem_append]
      · rw [if_neg hmem]
        rw [candZ_eq_zero c a.2 hmem, zero_add] at hZ
        rw [candR_eq_zero c a.2 hmem, zero_add] at hR
        by_cases hrest : c ∈ electionCandidates q rest <;>
          simp [hrest, hcands, hZ, hR, List.mem_append, hmem]

/-- The true totals hold, per candidate that appears, exactly the summed
`Z` and `R` values. -/
theorem trueTotals_lookup {q : Nat} (c : Bytes)
    (ballots : List (Bytes × Ballot (VoteN q))) :
    alookup (trueTotals q ballots) c =
      if c ∈ electionCandidates q ballots then
        some (electionZ q ballots c, electionR q ballots c)
      else none := by
  have h := trueTotalsFold_lookup c ballots []
  simpa [trueTotals, alookup] using h

/-- `upsertTrue` preserves duplicate-freedom of the key list. -/
theorem upsertTrue_keys_nodup {q : Nat} (m : List (Bytes × (ZMod q × ZMod q)))
    (c : Bytes) (Z R : ZMod q) (h : (m.map Prod.fst).Nodup) :
    ((upsertTrue q m c Z R).map Prod.fst).Nodup := by
  unfold upsertTrue
  split_ifs with hc
  · have hkeys : (m.map fun p =>
        if p.1 = c then (p.1, (p.2.1 + Z, p.2.2 + R)) else p).map Prod.fst =
          m.map Prod.fst := by
      rw [List.map_map]
      apply List.map_congr_left
      intro p _
      by_cases hp : p.1 = c <;> simp [hp]
    rw [hkeys]
    exact h
  · rw [List.map_append]
    refine List.Nodup.append h (by simp) ?_
    intro x hx hx'
    simp only [List.map_cons, List.map_nil, List.mem_singleton] at hx'
    exact hc (hx' ▸ hx)

/-- The true-totals key list is duplicate-free. -/
theorem trueTotals_keys_nodup {q : Nat}
    (ballots : List (Bytes × Ballot (VoteN q))) :
    ((trueTotals q ballots).map Prod.fst).Nodup := by
  have hfold : ∀ (votes : List (Bytes × VoteN q))
      (m : List (Bytes × (ZMod q × ZMod q))), (m.map Prod.fst).Nodup →
      (((votes.foldl (fun m' p => upsertTrue q m' p.1 p.2.Z p.2.R) m)).map
        Prod.fst).Nodup := by
    intro votes
    induction votes with
    | nil => intro m hm; exact hm
    | cons p votes ih =>
      intro m hm
      exact ih _ (upsertTrue_keys_nodup m p.1 p.2.Z p.2.R hm)
  have hballots : ∀ (bs : List (Bytes × Ballot (VoteN q)))
      (m : List (Bytes × (ZMod q × ZMod q))), (m.map Prod.fst).Nodup →
      ((bs.foldl (fun m' p => trueTotalsBallot q m' p.2) m).map Prod.fst).Nodup := by
    intro bs
    induction bs with
    | nil => intro m hm; exact hm
    | cons a bs ih =>
      intro m hm
      exact ih _ (hfold a.2.votes m hm)
  exact hballots ballots [] (by simp)

/-- Membership in the true-totals keys is appearance across the ballots. -/
theorem trueTotals_keys_mem {q : Nat} (c : Bytes)
    (ballots : List (Bytes × Ballot (VoteN q))) :
    c ∈ (trueTotals q ballots).map Prod.fst ↔
      c ∈ electionCandidates q ballots := by
  rw [← not_iff_not, ← alookup_eq_none_iff, trueTotals_lookup]
  by_cases hc : c ∈ electionCandidates q ballots <;> simp [hc]

/-- Lookup succeeds exactly on present keys. -/
theorem alookup_isSome_iff {β : Type} (m : List (Bytes × β)) (c : Bytes) :
    (alookup m c).isSome ↔ c ∈ m.map Prod.fst := by
  rw [← not_iff_not, ← alookup_eq_none_iff]
  cases h : alookup m c <;> simp [h]

/-- Outcomes of the tally-checking loop: success means every entry passes
its equations, a `Tally` error names a failing entry, and no other error
kind occurs. -/
theorem checkTallies_spec {q : Nat} (g1 g2 : ZMod q)
    (tt : List (Bytes × (ZMod q × ZMod q))) :
    ∀ totals : TotalsMap q,
      (checkTallies q g1 g2 tt totals = .ok () ↔
        ∀ p ∈ totals, checkEq q g1 g2 tt p.1 p.2) ∧
      (∀ c, checkTallies q g1 g2 tt totals = .error (.tally c) →
        ∃ tot, (c, tot) ∈ totals ∧ ¬ checkEq q g1 g2 tt c tot) ∧
      (∀ e, checkTallies q g1 g2 tt totals = .error e → ∃ c, e = .tally c) := by
  intro totals
  induction totals with
  | nil =>
    refine ⟨by simp [checkTallies], ?_, ?_⟩
    · intro c h
      simp [checkTallies] at h
    · intro e h
      simp [checkTallies] at h
  | cons p rest ih =>
    obtain ⟨c0, tot0⟩ := p
    rcases ih with ⟨ih1, ih2, ih3⟩
    by_cases hcond : g1 * (tot0.tally + tot0.r_sum) ≠ ((alookup tt c0).getD (0, 0)).1 ∨
        g2 * tot0.r_sum ≠ ((alookup tt c0).getD (0, 0)).2
    · have hne : ¬ checkEq q g1 g2 tt c0 tot0 := by
        rw [checkEq, not_and_or]
        rcases hcond with h | h
        · exact Or.inl h
        · exact Or.inr h
      have hred : checkTallies q g1 g2 tt ((c0, tot0) :: rest) = .error (.tally c0) := by
        simp only [checkTallies]
        rw [if_pos hcond]
      rw [hred]
      refine ⟨?_, ?_, ?_⟩
      · constructor
        · intro h; cases h
        · intro h
          exact absurd (h (c0, tot0) (List.mem_cons_self _ _)) hne
      · intro c h
        have hc : c = c0 := by
          cases h
          rfl
        subst hc
        exact ⟨tot0, List.mem_cons_self _ _, hne⟩
      · intro e h
        cases h
        exact ⟨c0, rfl⟩
    · push_neg at hcond
      have heq : checkEq q g1 g2 tt c0 tot0 := ⟨hcond.1, hcond.2⟩
      have hred : checkTallies q g1 g2 tt ((c0, tot0) :: rest) =
          checkTallies q g1 g2 tt rest := by
        simp only [checkTallies]
        rw [if_neg (by
          rw [not_or, not_not, not_not]
          exact ⟨hcond.1, hcond.2⟩)]
      rw [hred]
      refine ⟨?_, ?_, ?_⟩
      · rw [ih1, List.forall_mem_cons]
        simp [heq]
      · intro c h
        rcases ih2 c h with ⟨tot, hm, hne⟩
        exact ⟨tot, List.mem_cons_of_mem _ hm, hne⟩
      · exact ih3

/-- The candidate-set check of `Election::verify` (length equality plus
containment) is, for duplicate-free totals keys, exactly the statement that
the candidates appearing across the ballots are the keys of `totals`. -/
theorem candCheck_iff {q : Nat} (ballots : List (Bytes × Ballot (VoteN q)))
    (totals : TotalsMap q) (hnd : (totals.map Prod.fst).Nodup) :
    ((trueTotals q ballots).length = totals.length ∧
      ∀ p ∈ trueTotals q ballots, (alookup totals p.1).isSome) ↔
    (∀ c, c ∈ electionCandidates q ballots ↔ (alookup totals c).isSome) := by
  constructor
  · rintro ⟨hlen, hsub⟩ c
    constructor
    · intro hc
      rcases List.mem_map.mp ((trueTotals_keys_mem c ballots).mpr hc) with ⟨p, hp, hfst⟩
      have := hsub p hp
      rw [hfst] at this
      exact this
    · intro hc
      have hsubk : (trueTotals q ballots).map Prod.fst ⊆ totals.map Prod.fst := by
        intro x hx
        rcases List.mem_map.mp hx with ⟨p, hp, hfst⟩
        have := hsub p hp
        rw [hfst] at this
        exact (alookup_isSome_iff totals x).mp this
      have hperm : ((trueTotals q ballots).map Prod.fst).Perm (totals.map Prod.fst) := by
        apply List.Subperm.perm_of_length_le
        · exact List.subperm_of_subset (trueTotals_keys_nodup ballots) hsubk
        · simp only [List.length_map]
          exact le_of_eq hlen.symm
      have hmem : c ∈ (trueTotals q ballots).map Prod.fst :=
        hperm.mem_iff.mpr ((alookup_isSome_iff totals c).mp hc)
      exact (trueTotals_keys_mem c ballots).mp hmem
  · intro hiff
    have hperm : ((trueTotals q ballots).map Prod.fst).Perm (totals.map Prod.fst) := by
      rw [List.perm_ext_iff_of_nodup (trueTotals_keys_nodup ballots) hnd]
      intro a
      rw [trueTotals_keys_mem, hiff a, alookup_isSome_iff]
    constructor
    · have := hperm.length_eq
      simpa using this
    · intro p hp
      exact (hiff p.1).mp ((trueTotals_keys_mem p.1 ballots).mp
        (List.mem_map_of_mem Prod.fst hp))

/-- C5: with every per-ballot check passing, `Election::verify` returns
`WrongCandidates` exactly when the candidates appearing across the ballots'
votes differ from the key set of `totals`; otherwise, whenever some
announced entry fails `g1·(tally+r_sum) = Σ Z` or `g2·r_sum = Σ R`, the
result is a `Tally` error naming a candidate that fails its equations —
and the result is `Ok` exactly when every entry passes.  The
duplicate-free-keys hypothesis is the `HashMap` invariant on `totals`. -/
theorem C5_election_verify_outcomes (q : Nat) (H : List Bytes → ZMod q)
    (g1 g2 : ZMod q) (ballots : List (Bytes × Ballot (VoteN q)))
    (totals : TotalsMap q)
    (hb : ∀ p ∈ ballots, Ballot.verifyN q H g1 g2 p.2 p.1 = .ok ())
    (hnd : (totals.map Prod.fst).Nodup) :
    (Election.verify q H g1 g2 ballots totals = .error .wrongCandidates ↔
      ¬ (∀ c, c ∈ electionCandidates q ballots ↔ (alookup totals c).isSome)) ∧
    ((∀ c, c ∈ electionCandidates q ballots ↔ (alookup totals c).isSome) →
      ((Election.verify q H g1 g2 ballots totals = .ok () ↔
        ∀ p ∈ totals, tallyOk q g1 g2 ballots p.1 p.2) ∧
       (∀ c, Election.verify q H g1 g2 ballots totals = .error (.tally c) →
        ∃ tot, (c, tot) ∈ totals ∧ ¬ tallyOk q g1 g2 ballots c tot) ∧
       (¬ (∀ p ∈ totals, tallyOk q g1 g2 ballots p.1 p.2) →
        ∃ c tot, Election.verify q H g1 g2 ballots totals = .error (.tally c) ∧
          (c, tot) ∈ totals ∧ ¬ tallyOk q g1 g2 ballots c tot))) := by
  have hbc : ballotsCheck q H g1 g2 ballots = .ok () :=
    (ballotsCheck_ok_iff H g1 g2 ballots).mpr hb
  have hverify : Election.verify q H g1 g2 ballots totals =
      if (trueTotals q ballots).length = totals.length ∧
          ∀ p ∈ trueTotals q ballots, (alookup totals p.1).isSome then
        checkTallies q g1 g2 (trueTotals q ballots) totals
      else .error .wrongCandidates := by
    simp only [Election.verify, hbc]
  by_cases hcond : (trueTotals q ballots).length = totals.length ∧
      ∀ p ∈ trueTotals q ballots, (alookup totals p.1).isSome
  · have hiff := (candCheck_iff ballots totals hnd).mp hcond
    rw [hverify, if_pos hcond]
    rcases checkTallies_spec g1 g2 (trueTotals q ballots) totals with ⟨hok, htal, herr⟩
    have hbridge : ∀ p ∈ totals,
        (checkEq q g1 g2 (trueTotals q ballots) p.1 p.2 ↔
          tallyOk q g1 g2 ballots p.1 p.2) := by
      intro p hp
      have hc : p.1 ∈ electionCandidates q ballots := (hiff p.1).mpr (by
        rw [alookup_isSome_iff]
        exact List.mem_map_of_mem Prod.fst hp)
      rw [checkEq, tallyOk, trueTotals_lookup p.1 ballots, if_pos hc]
      simp
    constructor
    · constructor
      · intro h
        rcases herr _ h with ⟨c, hc⟩
        cases hc
      · intro h
        exact absurd hiff h
    · intro _
      refine ⟨?_, ?_, ?_⟩
      · rw [hok]
        constructor
        · intro h p hp
          exact (hbridge p hp).mp (h p hp)
        · intro h p hp
          exact (hbridge p hp).mpr (h p hp)
      · intro c h
        rcases htal c h with ⟨tot, hm, hne⟩
        exact ⟨tot, hm, fun ht => hne ((hbridge (c, tot) hm).mpr ht)⟩
      · intro hfail
        cases hres : checkTallies q g1 g2 (trueTotals q ballots) totals with
        | ok u =>
          cases u
          exact absurd (fun p hp => (hbridge p hp).mp ((hok.mp hres) p hp)) hfail
        | error e =>
          rcases herr e hres with ⟨c, hce⟩
          subst hce
          rcases htal c hres with ⟨tot, hm, hne⟩
          exact ⟨c, tot, rfl, hm, fun ht => hne ((hbridge (c, tot) hm).mpr ht)⟩
  · rw [hverify, if_neg hcond]
    have hniff : ¬ (∀ c, c ∈ electionCandidates q ballots ↔
        (alookup totals c).isSome) :=
      fun hiff => hcond ((candCheck_iff ballots totals hnd).mpr hiff)
    refine ⟨⟨fun _ => hniff, fun _ => rfl⟩, ?_⟩
    intro hiff
    exact absurd hiff hniff

/-- Witness for C5 over a one-ballot, one-candidate election whose ballot
verifies and whose totals announce the matching tally. -/
theorem C5_election_verify_outcomes_witness :
    (Election.verify 11 hashZero 1 1 [([5], cexBallotN)] [([0], ⟨2, 0⟩)]
        = .error .wrongCandidates ↔
      ¬ (∀ c, c ∈ electionCandidates 11 [([5], cexBallotN)] ↔
        (alookup [([0], (⟨2, 0⟩ : CandidateTotals 11))] c).isSome)) ∧
    ((∀ c, c ∈ electionCandidates 11 [([5], cexBallotN)] ↔
        (alookup [([0], (⟨2, 0⟩ : CandidateTotals 11))] c).isSome) →
      ((Election.verify 11 hashZero 1 1 [([5], cexBallotN)] [([0], ⟨2, 0⟩)]
          = .ok () ↔
        ∀ p ∈ [(([0] : Bytes), (⟨2, 0⟩ : CandidateTotals 11))],
          tallyOk 11 1 1 [([5], cexBallotN)] p.1 p.2) ∧
       (∀ c, Election.verify 11 hashZero 1 1 [([5], cexBallotN)] [([0], ⟨2, 0⟩)]
          = .error (.tally c) →
        ∃ tot, (c, tot) ∈ [(([0] : Bytes), (⟨2, 0⟩ : CandidateTotals 11))] ∧
          ¬ tallyOk 11 1 1 [([5], cexBallotN)] c tot) ∧
       (¬ (∀ p ∈ [(([0] : Bytes), (⟨2, 0⟩ : CandidateTotals 11))],
            tallyOk 11 1 1 [([5], cexBallotN)] p.1 p.2) →
        ∃ c tot, Election.verify 11 hashZero 1 1 [([5], cexBallotN)]
            [([0], ⟨2, 0⟩)] = .error (.tally c) ∧
          (c, tot) ∈ [(([0] : Bytes), (⟨2, 0⟩ : CandidateTotals 11))] ∧
          ¬ tallyOk 11 1 1 [([5], cexBallotN)] c tot))) :=
  C5_election_verify_outcomes 11 hashZero 1 1 [([5], cexBallotN)]
    [([0], ⟨2, 0⟩)] (by decide) (by decide)

/-- Entries of the all-zero totals map. -/
theorem zeroTotals_lookup {q : Nat} (S : List Bytes) (c : Bytes) :
    alookup (zeroTotals q S) c =
      if c ∈ S then some ⟨0, 0⟩ else none := by
  induction S with
  | nil => simp [zeroTotals, alookup]
  | cons s S ih =>
    simp only [zeroTotals, List.map_cons, alookup, List.mem_cons] at ih ⊢
    by_cases hs : s = c
    · simp [hs]
    · have hcs : ¬ c = s := fun he => hs he.symm
      rw [if_neg hs, ih]
      simp [hcs]

/-- Keys of the all-zero totals map. -/
theorem zeroTotals_keys {q : Nat} (S : List Bytes) :
    (zeroTotals q S).map Prod.fst = S := by
  induction S with
  | nil => rfl
  | cons s S ih => simp [zeroTotals, List.map_cons] at ih ⊢; exact ih

/-- `Ballot::new` succeeds on duplicate-free candidates. -/
theorem Ballot.new_ne_none {q : Nat} (H : List Bytes → ZMod q)
    (g1 g2 : ZMod q) (rng : Nat → ZMod q) (B yes : Bytes) (nos : List Bytes)
    (hnd : (yes :: nos).Nodup) :
    ∃ b, Ballot.new q H g1 g2 rng B yes nos = some b := by
  simp only [Ballot.new, insertVote, List.map_nil, List.not_mem_nil,
    if_false, List.nil_append]
  cases hnv : ballotNoVotes q H g1 g2 rng B nos 4
      [(yes, Vote.new q H g1 g2 B yes true (rng 0) (rng 1) (rng 2) (rng 3))] with
  | none =>
    exfalso
    have hiff := ballotNoVotes_none_iff H g1 g2 rng B nos 4
      [(yes, Vote.new q H g1 g2 B yes true (rng 0) (rng 1) (rng 2) (rng 3))]
      (by simp)
    rw [hnv] at hiff
    have := hiff.mp rfl
    simp only [List.map_cons, List.map_nil, List.singleton_append] at this
    exact this hnd
  | some votes => exact ⟨_, rfl⟩

/-- A successful `Ballot::new` had duplicate-free candidates. -/
theorem Ballot.new_some_nodup {q : Nat} (H : List Bytes → ZMod q)
    (g1 g2 : ZMod q) (rng : Nat → ZMod q) (B yes : Bytes) (nos : List Bytes)
    (b : Ballot (VoteS q)) (h : Ballot.new q H g1 g2 rng B yes nos = some b) :
    (yes :: nos).Nodup := by
  by_contra hnd
  simp only [Ballot.new, insertVote, List.map_nil, List.not_mem_nil,
    if_false, List.nil_append] at h
  have hiff := ballotNoVotes_none_iff H g1 g2 rng B nos 4
    [(yes, Vote.new q H g1 g2 B yes true (rng 0) (rng 1) (rng 2) (rng 3))]
    (by simp)
  simp only [List.map_cons, List.map_nil, List.singleton_append] at hiff
  rw [hiff.mpr hnd] at h
  cases h

/-- `createAll` succeeds on well-formed specifications, with each ballot a
successful `Ballot::new` over a permutation of the candidate set. -/
theorem createAll_spec {q : Nat} (H : List Bytes → ZMod q) (g1 g2 : ZMod q)
    (S : List Bytes) (hS : S.Nodup) :
    ∀ specs : List (Bytes × Bytes × List Bytes × (Nat → ZMod q)),
      (∀ s ∈ specs, (s.2.1 :: s.2.2.1).Perm S) →
      ∃ bs, createAll q H g1 g2 specs = some bs ∧
        bs.map Prod.fst = specs.map Prod.fst ∧
        ∀ pb ∈ bs, ∃ yes nos rng, (yes :: nos).Perm S ∧
          Ballot.new q H g1 g2 rng pb.1 yes nos = some pb.2 := by
  intro specs
  induction specs with
  | nil =>
    intro _
    exact ⟨[], rfl, rfl, by simp⟩
  | cons s specs ih =>
    intro hperm
    obtain ⟨bid, yes, nos, rng⟩ := s
    have hpermS : (yes :: nos).Perm S := hperm _ (List.mem_cons_self _ _)
    have hnd : (yes :: nos).Nodup := (hpermS.nodup_iff).mpr hS
    rcases Ballot.new_ne_none H g1 g2 rng bid yes nos hnd with ⟨b, hb⟩
    rcases ih (fun s' hs' => hperm s' (List.mem_cons_of_mem _ hs')) with
      ⟨bs, hbs, hkeys, hmem⟩
    refine ⟨(bid, b) :: bs, ?_, ?_, ?_⟩
    · simp only [createAll, hb, hbs]
    · simp [hkeys]
    · intro pb hpb
      rcases List.mem_cons.mp hpb with hpb1 | hpb2
      · subst hpb1
        exact ⟨yes, nos, rng, hpermS, hb⟩
      · exact hmem pb hpb2

/-- Factor `g1` out of the `Z` sum of votes of the honest shape. -/
theorem sum_Z_factor {q : Nat} (l : List (Bytes × VoteS q)) (g : ZMod q)
    (h : ∀ p ∈ l, p.2.Z = g * (p.2.r + p.2.v)) :
    (l.map fun p => p.2.Z).sum =
      g * ((l.map fun p => p.2.r).sum + (l.map fun p => p.2.v).sum) := by
  have hmap : l.map (fun p => p.2.Z) = l.map fun p => g * (p.2.r + p.2.v) :=
    List.map_congr_left h
  rw [hmap, List.sum_map_mul_left, List.sum_map_add]

/-- Factor `g2` out of the `R` sum of votes of the honest shape. -/
theorem sum_R_factor {q : Nat} (l : List (Bytes × VoteS q)) (g : ZMod q)
    (h : ∀ p ∈ l, p.2.R = g * p.2.r) :
    (l.map fun p => p.2.R).sum = g * (l.map fun p => p.2.r).sum := by
  have hmap : l.map (fun p => p.2.R) = l.map fun p => g * p.2.r :=
    List.map_congr_left h
  rw [hmap, List.sum_map_mul_left]

/-- A created ballot's secret `v` values sum to one. -/
theorem sum_v_eq_one {q : Nat} (l : List (Bytes × VoteS q)) (yes : Bytes)
    (nos : List Bytes)
    (hv : ∀ p ∈ l, p.2.v = if p.1 = yes then 1 else 0)
    (hkeys : l.map Prod.fst = yes :: nos) (hnd : (yes :: nos).Nodup) :
    (l.map fun p => p.2.v).sum = 1 := by
  have hmap : l.map (fun p => p.2.v) =
      (l.map Prod.fst).map fun c => if c = yes then (1 : ZMod q) else 0 := by
    rw [List.map_map]
    exact List.map_congr_left hv
  rw [hmap, hkeys, List.map_cons, List.sum_cons, if_pos rfl]
  have hzero : ((nos.map fun c => if c = yes then (1 : ZMod q) else 0)).sum = 0 := by
    apply List.sum_eq_zero
    intro x hx
    rcases List.mem_map.mp hx with ⟨c, hc, hcx⟩
    have hcy : ¬ c = yes := by
      intro he
      subst he
      exact (List.nodup_cons.mp hnd).1 hc
    rw [← hcx, if_neg hcy]
  rw [hzero, add_zero]

/-- Completeness of the ballot sum proof: honestly computed sums with one
yes vote verify. -/
theorem BallotProof.verify_new_complete {q : Nat} [NeZero q] (hq : q < 256 ^ 32)
    (H : List Bytes → ZMod q) (g1 g2 ρ rsum Zsum Rsum : ZMod q) (B : Bytes)
    (hZ : Zsum = g1 * (rsum + 1)) (hR : Rsum = g2 * rsum) :
    BallotProof.verify q H g1 g2 (BallotProof.new q H g1 g2 ρ rsum B)
      Zsum Rsum B = some () := by
  rw [BallotProof.verify_new_iff hq]
  subst hZ hR
  constructor <;> ring

/-- A vote created by `Vote::new` verifies after confirmation. -/
theorem createdVote_verifyN {q : Nat} [NeZero q] (hq : q < 256 ^ 32)
    (H : List Bytes → ZMod q) (g1 g2 : ZMod q) (B c : Bytes) (flag : Bool)
    (r ρ f1 f2 : ZMod q) :
    Vote.verifyN q H g1 g2
      (Vote.confirm q (Vote.new q H g1 g2 B c flag r ρ f1 f2)) B c = .ok () := by
  rw [voteVerifyN_ok_iff]
  simp only [Vote.new, Vote.confirm]
  exact VoteProof.verify_new hq H g1 g2 flag r ρ f1 f2 _ _ B c rfl rfl

/-- A ballot created by `Ballot::new` verifies after confirmation. -/
theorem createdBallot_confirm_verifyN {q : Nat} [NeZero q] (hq : q < 256 ^ 32)
    (H : List Bytes → ZMod q) (g1 g2 : ZMod q) (rng : Nat → ZMod q)
    (B yes : Bytes) (nos : List Bytes) (b : Ballot (VoteS q))
    (h : Ballot.new q H g1 g2 rng B yes nos = some b) :
    Ballot.verifyN q H g1 g2
      ⟨b.votes.map fun p => (p.1, Vote.confirm q p.2), b.pwf⟩ B = .ok () := by
  rcases Ballot.new_some_spec H g1 g2 rng B yes nos b h with ⟨hkeys, hmem, hpwf⟩
  have hnd := Ballot.new_some_nodup H g1 g2 rng B yes nos b h
  have hvX : ∀ p ∈ b.votes, p.2.Z = g1 * (p.2.r + p.2.v) ∧ p.2.R = g2 * p.2.r ∧
      p.2.v = if p.1 = yes then 1 else 0 := by
    intro p hp
    rcases hmem p hp with ⟨flag, r, ρ, f1, f2, hval, hflag⟩
    cases flag
    · have hne : ¬ p.1 = yes := fun hpy => by
        have := hflag.mpr hpy
        cases this
      rw [hval]
      refine ⟨by simp [Vote.new], by simp [Vote.new], ?_⟩
      simp [Vote.new, hne]
    · have hpy : p.1 = yes := hflag.mp rfl
      rw [hval]
      refine ⟨by simp [Vote.new], by simp [Vote.new], ?_⟩
      simp [Vote.new, hpy]
  rw [ballotVerifyN_ok_iff]
  constructor
  · rw [votesVerifyN_ok_iff]
    intro p' hp'
    rcases List.mem_map.mp hp' with ⟨p, hp, hpeq⟩
    rcases hmem p hp with ⟨flag, r, ρ, f1, f2, hval, _⟩
    rw [← hpeq]
    show Vote.verifyN q H g1 g2 (Vote.confirm q p.2) B p.1 = .ok ()
    rw [hval]
    exact createdVote_verifyN hq H g1 g2 B p.1 flag r ρ f1 f2
  · have hZmap : (((b.votes.map fun p => (p.1, Vote.confirm q p.2)).map
        fun p => p.2.Z)) = b.votes.map fun p => p.2.Z := by
      rw [List.map_map]
      rfl
    have hRmap : (((b.votes.map fun p => (p.1, Vote.confirm q p.2)).map
        fun p => p.2.R)) = b.votes.map fun p => p.2.R := by
      rw [List.map_map]
      rfl
    show BallotProof.verify q H g1 g2 b.pwf _ _ B = some ()
    rw [hZmap, hRmap, hpwf]
    apply BallotProof.verify_new_complete hq
    · rw [sum_Z_factor b.votes g1 fun p hp => (hvX p hp).1]
      rw [sum_v_eq_one b.votes yes nos (fun p hp => (hvX p hp).2.2) hkeys hnd]
    · rw [sum_R_factor b.votes g2 fun p hp => (hvX p hp).2.1]

/-- A confirmed ballot's per-candidate `Z` sum is the unconfirmed one's. -/
theorem candZ_confirm {q : Nat} (b : Ballot (VoteS q)) (c : Bytes) :
    candZ q ⟨b.votes.map fun p => (p.1, Vote.confirm q p.2), b.pwf⟩ c =
      ((b.votes.filter fun p => p.1 = c).map fun p => p.2.Z).sum := by
  unfold candZ
  show (((b.votes.map fun p => (p.1, Vote.confirm q p.2)).filter
    fun p => p.1 = c).map fun p => p.2.Z).sum = _
  rw [List.filter_map, List.map_map]
  rfl

/-- A confirmed ballot's per-candidate `R` sum is the unconfirmed one's. -/
theorem candR_confirm {q : Nat} (b : Ballot (VoteS q)) (c : Bytes) :
    candR q ⟨b.votes.map fun p => (p.1, Vote.confirm q p.2), b.pwf⟩ c =
      ((b.votes.filter fun p => p.1 = c).map fun p => p.2.R).sum := by
  unfold candR
  show (((b.votes.map fun p => (p.1, Vote.confirm q p.2)).filter
    fun p => p.1 = c).map fun p => p.2.R).sum = _
  rw [List.filter_map, List.map_map]
  rfl

/-- Keys and entries after a successful `confirmTotals`. -/
theorem confirmTotals_entry {q : Nat} :
    ∀ (votes : List (Bytes × VoteS q)) (t t' : TotalsMap q),
      confirmTotals q votes t = some t' →
      t'.map Prod.fst = t.map Prod.fst ∧
      ∀ c tot, alookup t c = some tot →
        alookup t' c = some
          ⟨tot.tally + ((votes.filter fun p => p.1 = c).map fun p => p.2.v).sum,
            tot.r_sum + ((votes.filter fun p => p.1 = c).map fun p => p.2.r).sum⟩ := by
  intro votes
  induction votes with
  | nil =>
    intro t t' h
    cases h
    refine ⟨rfl, ?_⟩
    intro c tot htot
    simpa using htot
  | cons p rest ih =>
    intro t t' h
    simp only [confirmTotals] at h
    cases hinc : incTotals q t p.1 p.2.v p.2.r with
    | none => rw [hinc] at h; cases h
    | some t1 =>
      rw [hinc] at h
      rcases ih t1 t' h with ⟨hkeys, hentry⟩
      refine ⟨by rw [hkeys, incTotals_some_keys t t1 p.1 p.2.v p.2.r hinc], ?_⟩
      intro c tot htot
      by_cases hpc : p.1 = c
      · subst hpc
        have h1 : alookup t1 p.1 = some ⟨tot.tally + p.2.v, tot.r_sum + p.2.r⟩ :=
          incTotals_some_self t t1 p.1 p.2.v p.2.r tot hinc htot
        have h2 := hentry p.1 _ h1
        rw [h2]
        simp [List.filter_cons, add_assoc]
      · have h1 : alookup t1 c = alookup t c :=
          incTotals_some_other t t1 p.1 c p.2.v p.2.r hinc (fun he => hpc he.symm)
        have h2 := hentry c tot (by rw [h1]; exact htot)
        rw [h2]
        simp [List.filter_cons, hpc]

/-- `confirmTotals` succeeds when every vote's candidate appears in the
totals map. -/
theorem confirmTotals_some_of_keys {q : Nat} :
    ∀ (votes : List (Bytes × VoteS q)) (t : TotalsMap q),
      (∀ c ∈ votes.map Prod.fst, c ∈ t.map Prod.fst) →
      ∃ t', confirmTotals q votes t = some t' := by
  intro votes
  induction votes with
  | nil =>
    intro t _
    exact ⟨t, rfl⟩
  | cons p rest ih =>
    intro t hkeys
    have hp : p.1 ∈ t.map Prod.fst := hkeys p.1 (by simp)
    cases hinc : incTotals q t p.1 p.2.v p.2.r with
    | none =>
      rw [incTotals_none_iff] at hinc
      exact absurd hp hinc
    | some t1 =>
      have hkeys1 : ∀ c ∈ rest.map Prod.fst, c ∈ t1.map Prod.fst := by
        intro c hc
        rw [incTotals_some_keys t t1 p.1 p.2.v p.2.r hinc]
        exact hkeys c (List.mem_cons_of_mem _ hc)
      rcases ih t1 hkeys1 with ⟨t', ht'⟩
      exact ⟨t', by simp [confirmTotals, hinc, ht']⟩

/-- Shape, keys and entries of a successful `confirmAll`. -/
theorem confirmAll_spec {q : Nat} :
    ∀ (bs : List (Bytes × Ballot (VoteS q))) (t : TotalsMap q),
      (∀ pb ∈ bs, ∀ c ∈ pb.2.votes.map Prod.fst, c ∈ t.map Prod.fst) →
      ∃ bns tf, confirmAll q bs t = some (bns, tf) ∧
        bns = bs.map (fun pb => (pb.1,
          (⟨pb.2.votes.map fun p => (p.1, Vote.confirm q p.2), pb.2.pwf⟩ :
            Ballot (VoteN q)))) ∧
        tf.map Prod.fst = t.map Prod.fst ∧
        ∀ c tot, alookup t c = some tot →
          alookup tf c = some ⟨tot.tally + electionVsum q bs c,
            tot.r_sum + electionRsum q bs c⟩ := by
  intro bs
  induction bs with
  | nil =>
    intro t _
    refine ⟨[], t, rfl, rfl, rfl, ?_⟩
    intro c tot htot
    simp only [electionVsum, electionRsum, List.map_nil, List.sum_nil, add_zero]
    exact htot
  | cons pb rest ih =>
    intro t hkeys
    have hk1 : ∀ c ∈ pb.2.votes.map Prod.fst, c ∈ t.map Prod.fst :=
      hkeys pb (List.mem_cons_self _ _)
    rcases confirmTotals_some_of_keys pb.2.votes t hk1 with ⟨t1, ht1⟩
    rcases confirmTotals_entry pb.2.votes t t1 ht1 with ⟨hkeys1, hentry1⟩
    have hkrest : ∀ pb' ∈ rest, ∀ c ∈ pb'.2.votes.map Prod.fst,
        c ∈ t1.map Prod.fst := by
      intro pb' hpb' c hc
      rw [hkeys1]
      exact hkeys pb' (List.mem_cons_of_mem _ hpb') c hc
    rcases ih t1 hkrest with ⟨bns, tf, hcall, hbns, hkeysf, hentryf⟩
    refine ⟨(pb.1, ⟨pb.2.votes.map fun p => (p.1, Vote.confirm q p.2), pb.2.pwf⟩)
      :: bns, tf, ?_, ?_, ?_, ?_⟩
    · simp [confirmAll, Ballot.confirm, ht1, hcall]
    · simp [hbns]
    · rw [hkeysf, hkeys1]
    · intro c tot htot
      have h1 := hentry1 c tot htot
      have h2 := hentryf c _ h1
      rw [h2]
      simp only [electionVsum, electionRsum, List.map_cons, List.sum_cons,
        ballotVsum, ballotRsum]
      simp [add_assoc]

/-- With duplicate-free keys, a member pair is what lookup finds. -/
theorem alookup_eq_of_mem {β : Type} :
    ∀ (m : List (Bytes × β)) (c : Bytes) (v : β),
      (m.map Prod.fst).Nodup → (c, v) ∈ m → alookup m c = some v := by
  intro m
  induction m with
  | nil =>
    intro c v _ hm
    cases hm
  | cons p rest ih =>
    intro c v hnd hm
    rcases List.mem_cons.mp hm with hm1 | hm2
    · rw [← hm1]
      simp [alookup]
    · have hpc : ¬ p.1 = c := by
        intro he
        rw [List.map_cons, List.nodup_cons] at hnd
        exact hnd.1 (he ▸ List.mem_map_of_mem Prod.fst hm2)
      rw [alookup, if_neg hpc]
      exact ih c v (by
        rw [List.map_cons, List.nodup_cons] at hnd
        exact hnd.2) hm2

/-- The per-candidate public sums of confirmed created ballots factor
through the generators and the secret sums. -/
theorem electionSums_of_created {q : Nat} (g1 g2 : ZMod q)
    (bs : List (Bytes × Ballot (VoteS q))) (c : Bytes)
    (hshape : ∀ pb ∈ bs, ∀ p ∈ pb.2.votes,
      p.2.Z = g1 * (p.2.r + p.2.v) ∧ p.2.R = g2 * p.2.r) :
    electionZ q (bs.map (fun pb => (pb.1,
        (⟨pb.2.votes.map fun p => (p.1, Vote.confirm q p.2), pb.2.pwf⟩ :
          Ballot (VoteN q))))) c =
      g1 * (electionRsum q bs c + electionVsum q bs c) ∧
    electionR q (bs.map (fun pb => (pb.1,
        (⟨pb.2.votes.map fun p => (p.1, Vote.confirm q p.2), pb.2.pwf⟩ :
          Ballot (VoteN q))))) c =
      g2 * electionRsum q bs c := by
  have hball : ∀ pb ∈ bs,
      (((pb.2.votes.filter fun p => p.1 = c).map fun p => p.2.Z).sum =
        g1 * (ballotRsum q pb.2 c + ballotVsum q pb.2 c)) ∧
      (((pb.2.votes.filter fun p => p.1 = c).map fun p => p.2.R).sum =
        g2 * ballotRsum q pb.2 c) := by
    intro pb hpb
    have hf : ∀ p ∈ pb.2.votes.filter fun p => p.1 = c,
        p.2.Z = g1 * (p.2.r + p.2.v) ∧ p.2.R = g2 * p.2.r :=
      fun p hp => hshape pb hpb p (List.mem_of_mem_filter hp)
    constructor
    · rw [sum_Z_factor _ g1 fun p hp => (hf p hp).1]
      rw [ballotRsum, ballotVsum, add_comm
        ((List.map (fun p => p.2.r) (List.filter (fun p => decide (p.1 = c)) pb.2.votes)).sum)]
    · rw [sum_R_factor _ g2 fun p hp => (hf p hp).2]
      rfl
  constructor
  · unfold electionZ
    rw [List.map_map]
    have hcong : bs.map ((fun p => candZ q p.2 c) ∘ (fun pb => (pb.1,
        (⟨pb.2.votes.map fun p => (p.1, Vote.confirm q p.2), pb.2.pwf⟩ :
          Ballot (VoteN q))))) =
        bs.map fun pb => g1 * (ballotRsum q pb.2 c + ballotVsum q pb.2 c) := by
      apply List.map_congr_left
      intro pb hpb
      show candZ q ⟨pb.2.votes.map fun p => (p.1, Vote.confirm q p.2), pb.2.pwf⟩ c = _
      rw [candZ_confirm]
      exact (hball pb hpb).1
    rw [hcong, List.sum_map_mul_left]
    unfold electionRsum electionVsum
    rw [← List.sum_map_add]
  · unfold electionR
    rw [List.map_map]
    have hcong : bs.map ((fun p => candR q p.2 c) ∘ (fun pb => (pb.1,
        (⟨pb.2.votes.map fun p => (p.1, Vote.confirm q p.2), pb.2.pwf⟩ :
          Ballot (VoteN q))))) =
        bs.map fun pb => g2 * ballotRsum q pb.2 c := by
      apply List.map_congr_left
      intro pb hpb
      show candR q ⟨pb.2.votes.map fun p => (p.1, Vote.confirm q p.2), pb.2.pwf⟩ c = _
      rw [candR_confirm]
      exact (hball pb hpb).2
    rw [hcong, List.sum_map_mul_left]
    rfl

/-- C1: for every election and every collection of ballots created by
`create_ballot` (distinct ballot identifiers, duplicate-free candidates,
the same candidate set in every ballot) and confirmed via `Ballot::confirm`
into a totals map whose entries start at `(0, 0)`, `Election::verify`
applied to the confirmed ballots and that totals map returns `Ok(())`. -/
theorem C1_created_confirmed_verifies (q : Nat) [NeZero q] (hq : q < 256 ^ 32)
    (H : List Bytes → ZMod q) (g1 g2 : ZMod q) (S : List Bytes) (hS : S.Nodup)
    (specs : List (Bytes × Bytes × List Bytes × (Nat → ZMod q)))
    (hne : specs ≠ []) (_hid : (specs.map Prod.fst).Nodup)
    (hperm : ∀ s ∈ specs, (s.2.1 :: s.2.2.1).Perm S) :
    ∃ bs bns tf,
      createAll q H g1 g2 specs = some bs ∧
      confirmAll q bs (zeroTotals q S) = some (bns, tf) ∧
      Election.verify q H g1 g2 bns tf = .ok () := by
  rcases createAll_spec H g1 g2 S hS specs hperm with ⟨bs, hbs, hbskeys, hbsmem⟩
  have hkeyscond : ∀ pb ∈ bs, ∀ c ∈ pb.2.votes.map Prod.fst,
      c ∈ (zeroTotals q S).map Prod.fst := by
    intro pb hpb c hc
    rcases hbsmem pb hpb with ⟨yes, nos, rng, hpermS, hnew⟩
    rcases Ballot.new_some_spec H g1 g2 rng pb.1 yes nos pb.2 hnew with ⟨hkeys, _, _⟩
    rw [zeroTotals_keys]
    rw [hkeys] at hc
    exact hpermS.mem_iff.mp hc
  rcases confirmAll_spec bs (zeroTotals q S) hkeyscond with
    ⟨bns, tf, hconf, hbns, htfkeys, hentry⟩
  refine ⟨bs, bns, tf, hbs, hconf, ?_⟩
  have hb : ∀ p ∈ bns, Ballot.verifyN q H g1 g2 p.2 p.1 = .ok () := by
    intro p hp
    rw [hbns] at hp
    rcases List.mem_map.mp hp with ⟨pb, hpb, hpeq⟩
    rcases hbsmem pb hpb with ⟨yes, nos, rng, _, hnew⟩
    rw [← hpeq]
    exact createdBallot_confirm_verifyN hq H g1 g2 rng pb.1 yes nos pb.2 hnew
  have hbc := (ballotsCheck_ok_iff H g1 g2 bns).mpr hb
  have hmemS : ∀ pb ∈ bs, ∀ c, c ∈ pb.2.votes.map Prod.fst ↔ c ∈ S := by
    intro pb hpb c
    rcases hbsmem pb hpb with ⟨yes, nos, rng, hpermS, hnew⟩
    rcases Ballot.new_some_spec H g1 g2 rng pb.1 yes nos pb.2 hnew with ⟨hkeys, _, _⟩
    rw [hkeys]
    exact hpermS.mem_iff
  have hiff : ∀ c, c ∈ electionCandidates q bns ↔ (alookup tf c).isSome := by
    intro c
    rw [alookup_isSome_iff, htfkeys, zeroTotals_keys]
    constructor
    · intro hc
      unfold electionCandidates at hc
      rcases List.mem_flatten.mp hc with ⟨l, hl, hcl⟩
      rcases List.mem_map.mp hl with ⟨p, hpbns, hleq⟩
      rw [hbns] at hpbns
      rcases List.mem_map.mp hpbns with ⟨pb, hpb, hpeq⟩
      have hlk : l = pb.2.votes.map Prod.fst := by
        rw [← hleq, ← hpeq]
        show ((pb.2.votes.map fun p => (p.1, Vote.confirm q p.2)).map Prod.fst) = _
        rw [List.map_map]
        rfl
      rw [hlk] at hcl
      exact (hmemS pb hpb c).mp hcl
    · intro hcS
      cases hbscase : bs with
      | nil =>
        exfalso
        rw [hbscase] at hbskeys
        exact hne (List.map_eq_nil_iff.mp hbskeys.symm)
      | cons pb0 rest0 =>
        unfold electionCandidates
        apply List.mem_flatten.mpr
        refine ⟨pb0.2.votes.map Prod.fst, ?_, ?_⟩
        · rw [hbns, hbscase]
          simp only [List.map_cons, List.map_map, List.mem_cons]
          left
          rfl
        · exact (hmemS pb0 (by rw [hbscase]; exact List.mem_cons_self _ _) c).mpr hcS
  have hnd_tf : (tf.map Prod.fst).Nodup := by
    rw [htfkeys, zeroTotals_keys]
    exact hS
  have hcond := (candCheck_iff bns tf hnd_tf).mpr hiff
  have hverify : Election.verify q H g1 g2 bns tf =
      if (trueTotals q bns).length = tf.length ∧
          ∀ p ∈ trueTotals q bns, (alookup tf p.1).isSome then
        checkTallies q g1 g2 (trueTotals q bns) tf
      else .error .wrongCandidates := by
    simp only [Election.verify, hbc]
  rw [hverify, if_pos hcond]
  rcases checkTallies_spec g1 g2 (trueTotals q bns) tf with ⟨hok, _, _⟩
  rw [hok]
  intro p hp
  have hshape : ∀ pb ∈ bs, ∀ pv ∈ pb.2.votes,
      pv.2.Z = g1 * (pv.2.r + pv.2.v) ∧ pv.2.R = g2 * pv.2.r := by
    intro pb hpb pv hpv
    rcases hbsmem pb hpb with ⟨yes, nos, rng, _, hnew⟩
    rcases Ballot.new_some_spec H g1 g2 rng pb.1 yes nos pb.2 hnew with ⟨_, hmem, _⟩
    rcases hmem pv hpv with ⟨flag, r, ρ, f1, f2, hval, _⟩
    rw [hval]
    exact ⟨by simp [Vote.new], by simp [Vote.new]⟩
  have hcS : p.1 ∈ S := by
    have : p.1 ∈ tf.map Prod.fst := List.mem_map_of_mem Prod.fst hp
    rw [htfkeys, zeroTotals_keys] at this
    exact this
  have hcands : p.1 ∈ electionCandidates q bns := (hiff p.1).mpr (by
    rw [alookup_isSome_iff]
    exact List.mem_map_of_mem Prod.fst hp)
  rw [checkEq, trueTotals_lookup p.1 bns, if_pos hcands]
  have hlook : alookup tf p.1 = some p.2 :=
    alookup_eq_of_mem tf p.1 p.2 hnd_tf (by
      obtain ⟨c, tot⟩ := p
      exact hp)
  have hz := hentry p.1 ⟨0, 0⟩ (by rw [zeroTotals_lookup, if_pos hcS])
  rw [hlook] at hz
  have hp2 : p.2 = ⟨0 + electionVsum q bs p.1, 0 + electionRsum q bs p.1⟩ :=
    Option.some_inj.mp hz
  rcases electionSums_of_created g1 g2 bs p.1 hshape with ⟨hZ, hR⟩
  rw [← hbns] at hZ hR
  rw [hp2, Option.getD_some]
  constructor
  · show g1 * ((0 + electionVsum q bs p.1) + (0 + electionRsum q bs p.1)) =
      electionZ q bns p.1
    rw [hZ]
    ring
  · show g2 * (0 + electionRsum q bs p.1) = electionR q bns p.1
    rw [hR]
    ring

/-- Witness for C1: a two-candidate, one-ballot election round-trips to a
verified result. -/
theorem C1_created_confirmed_verifies_witness :
    ∃ bs bns tf,
      createAll 11 hashDemo 2 3 [([9], [1], [[2]], rngDemo)] = some bs ∧
      confirmAll 11 bs (zeroTotals 11 [[1], [2]]) = some (bns, tf) ∧
      Election.verify 11 hashDemo 2 3 bns tf = .ok () :=
  C1_created_confirmed_verifies 11 (by norm_num) hashDemo 2 3 [[1], [2]]
    (by decide) [([9], [1], [[2]], rngDemo)] (List.cons_ne_nil _ _) (by decide)
    (by
      intro s hs
      simp only [List.mem_singleton] at hs
      subst hs
      decide)

end Dreip
